import Mathlib

/-!
Verification development for the AIGCCore evidence packager.

This file shallowly embeds the core Rust modules
(`determinism/json_canonical.rs`, `audit/event.rs`, `audit/log.rs`,
`policy/export_gate.rs`, `policy/egress.rs`, `policy/allowlist.rs`,
`adapters/loopback.rs`, `adapters/interface.rs`, `determinism/run_id.rs`,
`determinism/zip.rs`, `validator/mod.rs`) as executable Lean definitions and
proves the stated properties about them.  External library functions that the
core merely calls (SHA-256, the `url` parser, `idna::domain_to_ascii`, the zip
container encoder) are taken as parameters: every theorem quantifies over them,
so the results hold for the real implementations.
-/

set_option maxHeartbeats 1000000

namespace AIGC

/-! ## JSON data model (serde_json::Value)

`serde_json::Value` restricted to what the repository manipulates: null,
booleans, numbers, strings, arrays, objects.  A number is either an integer
(`is_i64() || is_u64()` in the source) or not; non-integer numbers are rejected
by `normalize_value` before any serialization can look at them, so their
payload is abstracted into the single constructor `floatNum`. -/

inductive Json where
  | null : Json
  | bool (b : Bool) : Json
  | int (n : Int) : Json
  | floatNum : Json
  | str (s : String) : Json
  | arr (elems : List Json) : Json
  | obj (members : List (String × Json)) : Json
deriving Inhabited

/-- First-match association lookup, i.e. `serde_json::Map::get` on the list of
members (serde maps never hold duplicate keys, so first match is the match). -/
def jlookup (k : String) : List (String × Json) → Option Json
  | [] => none
  | (k1, v) :: rest => if k1 = k then some v else jlookup k rest

/-- `Value::get` on a top-level value: key lookup for objects, `None` otherwise. -/
def jsonGet (v : Json) (k : String) : Option Json :=
  match v with
  | .obj kvs => jlookup k kvs
  | _ => none

/-! ## Compact JSON serialization (serde_json::to_string)

The exact byte form `serde_json::to_string` emits for a value, at `Char`
granularity (UTF-8 encoding of a character sequence is injective, so equality
of the character stream and equality of the byte stream agree). -/

/-- Decimal digit character. -/
def digitChar (d : Nat) : Char := Char.ofNat (48 + d)

/-- Lowercase hex digit character (serde_json's escape table is lowercase). -/
def hexDigitChar (d : Nat) : Char :=
  if d < 10 then Char.ofNat (48 + d) else Char.ofNat (87 + d)

/-- Decimal digits of a natural number, most significant first, no leading
zeros (itoa's output, used by serde_json for integers). -/
def natDigits (n : Nat) : List Char :=
  if _h : n < 10 then [digitChar n]
  else natDigits (n / 10) ++ [digitChar (n % 10)]
decreasing_by exact Nat.div_lt_self (by omega) (by omega)

/-- Decimal rendering of an integer: optional minus sign then digits. -/
def intRepr : Int → List Char
  | .ofNat n => natDigits n
  | .negSucc m => '-' :: natDigits (m + 1)

/-- serde_json's string escaping for one character: `\"`, `\\`, the five short
control escapes, `\u00xx` for the remaining control characters, and everything
else raw. -/
def escChar (c : Char) : List Char :=
  if c = '"' then ['\\', '"']
  else if c = '\\' then ['\\', '\\']
  else if c = '\x08' then ['\\', 'b']
  else if c = '\t' then ['\\', 't']
  else if c = '\n' then ['\\', 'n']
  else if c = '\x0c' then ['\\', 'f']
  else if c = '\r' then ['\\', 'r']
  else if c.toNat < 32 then
    ['\\', 'u', '0', '0', hexDigitChar (c.toNat / 16), hexDigitChar (c.toNat % 16)]
  else [c]

/-- Escape every character of a string body. -/
def escList : List Char → List Char
  | [] => []
  | c :: cs => escChar c ++ escList cs

/-- Numeric value of a lowercase hex digit character. -/
def hexVal (c : Char) : Nat :=
  if 97 ≤ c.toNat then c.toNat - 87 else c.toNat - 48

/-- Decoder for one escaped character: the left inverse of `escChar` used to
prove that escaping is unambiguous. -/
def escDecode : List Char → Option (Char × List Char)
  | [] => none
  | c :: rest =>
      if c = '\\' then
        match rest with
        | [] => none
        | e :: rest2 =>
            if e = '"' then some ('"', rest2)
            else if e = '\\' then some ('\\', rest2)
            else if e = 'b' then some ('\x08', rest2)
            else if e = 't' then some ('\t', rest2)
            else if e = 'n' then some ('\n', rest2)
            else if e = 'f' then some ('\x0c', rest2)
            else if e = 'r' then some ('\r', rest2)
            else if e = 'u' then
              match rest2 with
              | z1 :: z2 :: x1 :: x2 :: rest3 =>
                  if z1 = '0' ∧ z2 = '0' then
                    some (Char.ofNat (16 * hexVal x1 + hexVal x2), rest3)
                  else none
              | _ => none
            else none
      else some (c, rest)

mutual
/-- Compact JSON text of a value, exactly as `serde_json::to_string` writes it:
no insignificant whitespace, members in list order.  (`floatNum` is given an
arbitrary rendering; `normalize_value` rejects it before serialization.) -/
def ser : Json → List Char
  | .null => "null".data
  | .bool true => "true".data
  | .bool false => "false".data
  | .int n => intRepr n
  | .floatNum => ['0', '.', '0']
  | .str s => '"' :: (escList s.data ++ ['"'])
  | .arr xs => '[' :: (serItems xs ++ [']'])
  | .obj kvs => '{' :: (serMembers kvs ++ ['}'])

/-- Comma-separated array items. -/
def serItems : List Json → List Char
  | [] => []
  | [x] => ser x
  | x :: y :: xs => ser x ++ ',' :: serItems (y :: xs)

/-- Comma-separated object members, each `"key":value`. -/
def serMembers : List (String × Json) → List Char
  | [] => []
  | [(k, v)] => '"' :: (escList k.data ++ '"' :: ':' :: ser v)
  | (k, v) :: m :: kvs =>
      ('"' :: (escList k.data ++ '"' :: ':' :: ser v)) ++ ',' :: serMembers (m :: kvs)
end

/-! ## Canonicalization (determinism/json_canonical.rs) -/

/-- The error enum of `src/core/src/error.rs` (payloads of foreign error types
are flattened to their message strings). -/
inductive CoreError where
  | InvalidInput (msg : String)
  | InputSchemaError (msg : String)
  | ArtifactMissingError (msg : String)
  | PolicyViolationError (msg : String)
  | DeterminismViolation (msg : String)
  | DeterminismViolationError (msg : String)
  | CitationViolationError (msg : String)
  | RedactionViolationError (msg : String)
  | ConsentMissingError (msg : String)
  | WorkflowTransitionError (msg : String)
  | PolicyBlocked (msg : String)
  | EvidenceOsValidation (msg : String)
  | Io (msg : String)
  | Json (msg : String)
  | Zip (msg : String)
  | Csv (msg : String)
deriving DecidableEq

mutual
/-- Does the value contain a non-integer number anywhere? -/
def hasFloat : Json → Bool
  | .floatNum => true
  | .arr xs => hasFloatList xs
  | .obj kvs => hasFloatPairs kvs
  | _ => false

def hasFloatList : List Json → Bool
  | [] => false
  | x :: xs => hasFloat x || hasFloatList xs

def hasFloatPairs : List (String × Json) → Bool
  | [] => false
  | (_, v) :: kvs => hasFloat v || hasFloatPairs kvs
end

/-- Strict lexicographic character-list order, executable.  On well-formed
Unicode this agrees with the byte-lexicographic `Ord` that Rust's `String`
(and hence `BTreeMap<String, _>` iteration and `sort_by(cmp)`) uses, and with
Lean's `<` on `String` (proved below as `strLt_iff_lt`). -/
def charListLt : List Char → List Char → Bool
  | [], [] => false
  | [], _ :: _ => true
  | _ :: _, [] => false
  | a :: as, b :: bs =>
      a.toNat < b.toNat || (a.toNat = b.toNat && charListLt as bs)

/-- Strict string order (byte-lexicographic, as Rust compares strings). -/
def strLt (a b : String) : Bool := charListLt a.data b.data

/-- Reflexive string order. -/
def strLe (a b : String) : Bool := strLt a b || a == b

/-- Rust's `str::starts_with` on strings. -/
def strStartsWith (s p : String) : Bool := p.data.isPrefixOf s.data

/-- Sorted-map insertion with replacement: the effect of `BTreeMap::insert`
on a key-sorted association list. -/
def insertSorted (k : String) (v : Json) : List (String × Json) → List (String × Json)
  | [] => [(k, v)]
  | (k1, v1) :: rest =>
    if strLt k k1 then (k, v) :: (k1, v1) :: rest
    else if k = k1 then (k, v) :: rest
    else (k1, v1) :: insertSorted k v rest

/-- Rebuild an association list in sorted key order by inserting every member
into an initially empty sorted map (the `BTreeMap` rebuild in
`normalize_value`; a later duplicate key overwrites an earlier one, as
`insert` does). -/
def sortPairs (l : List (String × Json)) : List (String × Json) :=
  l.foldl (fun acc kv => insertSorted kv.1 kv.2 acc) []

mutual
/-- The total normal form underlying `normalize_value`: recursively sort
object keys, leave everything else in place (`normalize_value v` returns
exactly `nfv v` when `v` has no non-integer number, as proved below). -/
def nfv : Json → Json
  | .arr xs => .arr (nfvList xs)
  | .obj kvs => .obj (sortPairs (nfvPairs kvs))
  | x => x

def nfvList : List Json → List Json
  | [] => []
  | x :: xs => nfv x :: nfvList xs

def nfvPairs : List (String × Json) → List (String × Json)
  | [] => []
  | (k, v) :: kvs => (k, nfv v) :: nfvPairs kvs
end

/-- Is the character a decimal digit? -/
def isDigitChar (c : Char) : Bool := 48 ≤ c.toNat && c.toNat ≤ 57

/-- Value of a most-significant-first digit string. -/
def digitsVal (cs : List Char) : Nat :=
  cs.foldl (fun a c => 10 * a + (c.toNat - 48)) 0

/-- Grouping of characters by which serialized form they can start:
0 = null, 1 = boolean, 2 = number, 3 = string, 4 = array, 5 = object,
6 = none of these. -/
def charClass (c : Char) : Nat :=
  if c = 'n' then 0
  else if c = 't' ∨ c = 'f' then 1
  else if c = '-' ∨ isDigitChar c then 2
  else if c = '"' then 3
  else if c = '[' then 4
  else if c = '{' then 5
  else 6

/-- The class of the first character a value serializes to. -/
def headClass : Json → Nat
  | .null => 0
  | .bool _ => 1
  | .int _ => 2
  | .floatNum => 2
  | .str _ => 3
  | .arr _ => 4
  | .obj _ => 5

/-- A tail that can legally follow a serialized value inside a larger
serialized document: nothing, or a separator or closer. -/
def delimHead : List Char → Prop
  | [] => True
  | c :: _ => c = ',' ∨ c = '}' ∨ c = ']'

mutual
/-- `normalize_value`: recursively sort object keys, keep arrays in order,
reject non-integer numbers with a `DeterminismViolationError`. -/
def normalize_value : Json → Except CoreError Json
  | .null => .ok .null
  | .bool b => .ok (.bool b)
  | .int n => .ok (.int n)
  | .floatNum => .error (.DeterminismViolationError "canonical JSON forbids non-integer numbers")
  | .str s => .ok (.str s)
  | .arr xs =>
      match normalizeList xs with
      | .error e => .error e
      | .ok ys => .ok (.arr ys)
  | .obj kvs =>
      match normalizePairs kvs with
      | .error e => .error e
      | .ok nkvs => .ok (.obj (sortPairs nkvs))

def normalizeList : List Json → Except CoreError (List Json)
  | [] => .ok []
  | x :: xs =>
      match normalize_value x with
      | .error e => .error e
      | .ok y =>
          match normalizeList xs with
          | .error e => .error e
          | .ok ys => .ok (y :: ys)

def normalizePairs : List (String × Json) → Except CoreError (List (String × Json))
  | [] => .ok []
  | (k, v) :: kvs =>
      match normalize_value v with
      | .error e => .error e
      | .ok w =>
          match normalizePairs kvs with
          | .error e => .error e
          | .ok ws => .ok ((k, w) :: ws)
end

/-- `to_canonical_bytes`: normalize, then serialize compactly.  The result is
the UTF-8 character stream of the canonical bytes. -/
def to_canonical_bytes (v : Json) : Except CoreError (List Char) :=
  match normalize_value v with
  | .error e => .error e
  | .ok n => .ok (ser n)

/-! ## Structural equality of JSON trees

Two values are structurally equal when they agree as trees, with object
members compared as finite maps (same keys, equal values at every key),
irrespective of member insertion order.  This is the spec-side notion the
canonicalization invariant refers to; it is stated for values whose object
member lists carry no duplicate keys, which is what `serde_json::Map`
guarantees. -/

mutual
def structEq : Json → Json → Bool
  | .null, .null => true
  | .bool a, .bool b => a == b
  | .int a, .int b => a == b
  | .floatNum, .floatNum => true
  | .str a, .str b => a == b
  | .arr xs, .arr ys => structEqList xs ys
  | .obj xs, .obj ys => xs.length == ys.length && structEqPairs xs ys
  | _, _ => false

def structEqList : List Json → List Json → Bool
  | [], [] => true
  | x :: xs, y :: ys => structEq x y && structEqList xs ys
  | _, _ => false

def structEqPairs : List (String × Json) → List (String × Json) → Bool
  | [], _ => true
  | (k, v) :: rest, ys =>
      (match jlookup k ys with
       | some w => structEq v w
       | none => false) && structEqPairs rest ys
end

/-- No duplicate keys among the members of an object list. -/
def keysNodup : List (String × Json) → Bool
  | [] => true
  | (k, _) :: kvs => (jlookup k kvs).isNone && keysNodup kvs

mutual
/-- Every object member list in the tree is duplicate-free (the shape every
`serde_json::Value` has, since its maps cannot hold duplicate keys). -/
def wellFormed : Json → Bool
  | .arr xs => wellFormedList xs
  | .obj kvs => keysNodup kvs && wellFormedPairs kvs
  | _ => true

def wellFormedList : List Json → Bool
  | [] => true
  | x :: xs => wellFormed x && wellFormedList xs

def wellFormedPairs : List (String × Json) → Bool
  | [] => true
  | (_, v) :: kvs => wellFormed v && wellFormedPairs kvs
end

/-! ## Audit events (audit/event.rs) -/

/-- `Actor`, serialized with `rename_all = "snake_case"`. -/
inductive Actor where
  | system : Actor
  | user : Actor
deriving DecidableEq

def Actor.toJson : Actor → Json
  | .system => .str "system"
  | .user => .str "user"

/-- The audit event envelope. -/
structure AuditEvent where
  ts_utc : String
  event_type : String
  run_id : String
  vault_id : String
  actor : Actor
  details : Json
  prev_event_hash : String
  event_hash : String

def ZERO_HASH_64 : String :=
  "0000000000000000000000000000000000000000000000000000000000000000"

/-- `serde_json::to_value` of an `AuditEvent`: the eight fields in declaration
order. -/
def eventToJson (e : AuditEvent) : Json :=
  .obj [("ts_utc", .str e.ts_utc), ("event_type", .str e.event_type),
        ("run_id", .str e.run_id), ("vault_id", .str e.vault_id),
        ("actor", e.actor.toJson), ("details", e.details),
        ("prev_event_hash", .str e.prev_event_hash),
        ("event_hash", .str e.event_hash)]

/-- `char::is_ascii_hexdigit`. -/
def is_ascii_hexdigit (c : Char) : Bool :=
  (48 ≤ c.toNat && c.toNat ≤ 57) || (97 ≤ c.toNat && c.toNat ≤ 102)
    || (65 ≤ c.toNat && c.toNat ≤ 70)

/-- Byte length of a character list under UTF-8 (Rust's `str::len`). -/
def utf8Len (cs : List Char) : Nat := cs.foldl (fun n c => n + c.utf8Size) 0

/-- `compute_event_hash`: canonical bytes of the full envelope with
`event_hash` forced to the zero sentinel, then SHA-256 (the hash function is a
parameter `sha`; the theorems hold for every choice of it). -/
def compute_event_hash (sha : List Char → String) (event : AuditEvent) :
    Except CoreError String :=
  match to_canonical_bytes (eventToJson { event with event_hash := ZERO_HASH_64 }) with
  | .error e => .error e
  | .ok bytes => .ok (sha bytes)

/-- The closed event-type taxonomy of `validate_event_taxonomy`. -/
def allowed_event_types : List String :=
  ["RUN_CREATED", "RUN_STATE_CHANGED", "POLICY_APPLIED", "NETWORK_MODE_SET",
   "ALLOWLIST_UPDATED", "ARTIFACT_INGEST_STARTED", "ARTIFACT_INGESTED",
   "ARTIFACT_INGEST_COMPLETED", "EVAL_STARTED", "EVAL_GATE_RESULT",
   "EVAL_COMPLETED", "EXPORT_REQUESTED", "EXPORT_BLOCKED", "EXPORT_COMPLETED",
   "RUN_COMPLETED", "RUN_FAILED", "RUN_CANCELLED", "EGRESS_REQUEST_ALLOWED",
   "EGRESS_REQUEST_BLOCKED", "MODEL_SELECTION_RESOLVED", "MODEL_CALL_STARTED",
   "MODEL_CALL_COMPLETED", "MODEL_CALL_FAILED", "NO_AI_MODE_USED",
   "REDACTION_APPLIED", "REDACTION_VALIDATION_RESULT",
   "CITATION_VALIDATION_RESULT", "DETERMINISM_PROFILE_SET",
   "DETERMINISM_DOWNGRADED", "DETERMINISM_VALIDATION_RESULT",
   "BUNDLE_GENERATION_STARTED", "BUNDLE_GENERATION_COMPLETED",
   "BUNDLE_VALIDATION_STARTED", "BUNDLE_VALIDATION_RESULT",
   "VAULT_ENCRYPTION_STATUS", "VAULT_KEY_ROTATED", "DELETION_REQUESTED",
   "DELETION_COMPLETED", "EXPORT_FAILED"]

/-- `required_detail_keys`: per-type required keys under `details`. -/
def required_detail_keys (event_type : String) : List String :=
  if event_type = "RUN_CREATED" then
    ["pack_id", "pack_version", "policy_pack_id", "policy_pack_version",
     "determinism_enabled"]
  else if event_type = "RUN_STATE_CHANGED" then ["from_state", "to_state", "reason"]
  else if event_type = "POLICY_APPLIED" then
    ["policy_mode", "rules_enabled", "export_requirements"]
  else if event_type = "NETWORK_MODE_SET" then
    ["network_mode", "proof_level", "ui_remote_fetch_disabled"]
  else if event_type = "ALLOWLIST_UPDATED" then
    ["allowlist_hash_sha256", "allowlist_count"]
  else if event_type = "ARTIFACT_INGEST_STARTED" then ["source_type", "source_ref"]
  else if event_type = "ARTIFACT_INGESTED" then
    ["artifact_id", "artifact_sha256", "content_type", "size_bytes",
     "origin_path", "ingest_transformations"]
  else if event_type = "ARTIFACT_INGEST_COMPLETED" then ["artifact_count"]
  else if event_type = "MODEL_SELECTION_RESOLVED" then
    ["task_type", "selected_model_id", "pinning_level", "adapter_id",
     "adapter_endpoint"]
  else if event_type = "MODEL_CALL_STARTED" then
    ["call_id", "task_type", "input_artifact_refs", "request_hash_sha256",
     "timeout_ms"]
  else if event_type = "MODEL_CALL_COMPLETED" then
    ["call_id", "response_hash_sha256", "duration_ms"]
  else if event_type = "MODEL_CALL_FAILED" then
    ["call_id", "error_category", "error_code", "error_message_redacted"]
  else if event_type = "NO_AI_MODE_USED" then ["reason", "affected_tasks"]
  else if event_type = "EGRESS_REQUEST_ALLOWED" then
    ["destination", "allowlist_rule_id", "request_hash_sha256"]
  else if event_type = "EGRESS_REQUEST_BLOCKED" then
    ["destination", "block_reason", "request_hash_sha256"]
  else if event_type = "REDACTION_APPLIED" then
    ["artifact_id", "redaction_type", "region", "reason", "policy_rule_id"]
  else if event_type = "REDACTION_VALIDATION_RESULT" then
    ["result", "missing_required_redactions"]
  else if event_type = "CITATION_VALIDATION_RESULT" then
    ["result", "claims_total", "claims_missing_citations",
     "locator_schema_version"]
  else if event_type = "EVAL_STARTED" then ["registry_version"]
  else if event_type = "EVAL_GATE_RESULT" then
    ["gate_id", "result", "severity", "evidence_pointers", "message"]
  else if event_type = "EVAL_COMPLETED" then
    ["gates_executed", "gates_failed_blocker", "gates_failed_total"]
  else if event_type = "EXPORT_REQUESTED" then
    ["requested_by", "export_targets", "policy_mode"]
  else if event_type = "EXPORT_BLOCKED" then ["block_reason", "failed_gate_ids"]
  else if event_type = "EXPORT_COMPLETED" then
    ["bundle_path", "bundle_sha256", "bundle_version", "validator_result"]
  else if event_type = "BUNDLE_VALIDATION_RESULT" then
    ["result", "failed_checks", "validator_version"]
  else if event_type = "VAULT_ENCRYPTION_STATUS" then
    ["encryption_at_rest", "algorithm", "key_storage"]
  else if event_type = "VAULT_KEY_ROTATED" then ["old_key_id", "new_key_id"]
  else if event_type = "DELETION_REQUESTED" then ["artifact_ids", "requested_by"]
  else if event_type = "DELETION_COMPLETED" then
    ["artifact_ids_deleted", "blob_delete_method",
     "sqlite_compaction_attempted", "result"]
  else []

/-- `validate_event_taxonomy`: the type must be in the closed taxonomy and the
required detail keys must be present (`Value::get` on the details). -/
def validate_event_taxonomy (event : AuditEvent) : Except CoreError Unit :=
  if ¬ allowed_event_types.contains event.event_type then
    .error (.InvalidInput ("unknown event_type " ++ event.event_type))
  else if ¬ ((required_detail_keys event.event_type).all
      (fun k => (jsonGet event.details k).isSome)) then
    .error (.InvalidInput "missing required details key")
  else .ok ()

/-- `finalize_event`: validate `prev_event_hash` (64 hex chars, byte length),
validate the taxonomy, then set `event_hash` from `compute_event_hash`. -/
def finalize_event (sha : List Char → String) (event : AuditEvent) :
    Except CoreError AuditEvent :=
  if ¬ (utf8Len event.prev_event_hash.data = 64
      ∧ event.prev_event_hash.data.all is_ascii_hexdigit) then
    .error (.InvalidInput "prev_event_hash must be 64 hex chars")
  else
    match validate_event_taxonomy event with
    | .error e => .error e
    | .ok _ =>
        match compute_event_hash sha event with
        | .error e => .error e
        | .ok eh => .ok { event with event_hash := eh }

/-! ## Audit log (audit/log.rs)

The log state is the sequence of appended (finalized) events plus the running
`last_hash`.  `open_or_create` on a fresh path yields the empty log with the
zero sentinel. -/

structure AuditLog where
  lines : List AuditEvent
  last_hash : String

/-- `AuditLog::open_or_create` on a path that does not exist yet. -/
def AuditLog.openFresh : AuditLog := ⟨[], ZERO_HASH_64⟩

/-- `AuditLog::append`: overwrite the caller's `prev_event_hash` with the
log's `last_hash`, finalize, append the line, advance `last_hash`. -/
def AuditLog.append (sha : List Char → String) (log : AuditLog)
    (event : AuditEvent) : Except CoreError (AuditEvent × AuditLog) :=
  let event := { event with prev_event_hash := log.last_hash }
  match finalize_event sha event with
  | .error e => .error e
  | .ok fe => .ok (fe, ⟨log.lines ++ [fe], fe.event_hash⟩)

/-- A sequence of `append` calls, failing on the first failure. -/
def appendAll (sha : List Char → String) (log : AuditLog) :
    List AuditEvent → Except CoreError AuditLog
  | [] => .ok log
  | e :: es =>
      match log.append sha e with
      | .error err => .error err
      | .ok (_, log2) => appendAll sha log2 es

/-! ## Validator audit-chain check (validator/mod.rs, check_audit_chain) -/

/-- `serde_json::Map::insert` on a parsed object: replace the value at the key
in place, or add the member if absent.  (With a key-sorted map the position
differs, but `to_canonical_bytes` re-sorts members, so the canonical bytes
agree either way.) -/
def replaceKey (k : String) (v : Json) : List (String × Json) → List (String × Json)
  | [] => [(k, v)]
  | (k1, v1) :: rest =>
      if k1 = k then (k, v) :: rest else (k1, v1) :: replaceKey k v rest

/-- `v.as_object_mut().insert(k, val)` on a JSON value known to be an object. -/
def setKey (k : String) (v : Json) : Json → Json
  | .obj kvs => .obj (replaceKey k v kvs)
  | other => other

/-- The eight required top-level keys of every audit line. -/
def requiredAuditKeys : List String :=
  ["ts_utc", "event_type", "run_id", "vault_id", "actor", "details",
   "prev_event_hash", "event_hash"]

/-- `Value::as_str` with `unwrap_or("")`. -/
def asStrOrEmpty : Option Json → String
  | some (.str s) => s
  | _ => ""

/-- The loop body of `check_audit_chain` over the parsed NDJSON lines: every
required key present, `prev_event_hash` equals the running predecessor hash,
and the stored `event_hash` equals SHA-256 of the canonical bytes of the line
with `event_hash` forced to the zero sentinel.  `true` means the check passes
(`CheckResult.result = "PASS"` in the source; the failure messages are not
modelled). -/
def checkChainFrom (sha : List Char → String) : String → List Json → Bool
  | _, [] => true
  | prev, v :: rest =>
      if ¬ (requiredAuditKeys.all (fun k => (jsonGet v k).isSome)) then false
      else if ¬ (asStrOrEmpty (jsonGet v "prev_event_hash") = prev) then false
      else
        let stored := asStrOrEmpty (jsonGet v "event_hash")
        match to_canonical_bytes (setKey "event_hash" (.str ZERO_HASH_64) v) with
        | .error _ => false
        | .ok canonical =>
            if ¬ (sha canonical = stored) then false
            else checkChainFrom sha stored rest

/-- `check_audit_chain` over the parsed audit log lines. -/
def check_audit_chain (sha : List Char → String) (lines : List Json) : Bool :=
  checkChainFrom sha ZERO_HASH_64 lines

/-- The hash-chain invariant the claims state, starting from a given
predecessor hash: every event's `event_hash` is SHA-256 of the canonical bytes
of the event with `event_hash` zeroed, and every `prev_event_hash` equals the
predecessor's `event_hash` (the given sentinel for the first event). -/
def chainLinked (sha : List Char → String) : String → List AuditEvent → Prop
  | _, [] => True
  | prev, e :: rest =>
      e.prev_event_hash = prev
      ∧ (∃ bs, to_canonical_bytes (eventToJson { e with event_hash := ZERO_HASH_64 })
            = .ok bs ∧ e.event_hash = sha bs)
      ∧ chainLinked sha e.event_hash rest

/-- The event hash of the last line, or the given sentinel for an empty log. -/
def lastHashOf (d : String) (l : List AuditEvent) : String :=
  match l.getLast? with
  | some e => e.event_hash
  | none => d

/-! ## Policy types (policy/types.rs, adapters/pinning.rs) -/

inductive PolicyMode where
  | STRICT : PolicyMode
  | BALANCED : PolicyMode
  | DRAFT_ONLY : PolicyMode
deriving DecidableEq, Fintype

inductive NetworkMode where
  | OFFLINE : NetworkMode
  | ONLINE_ALLOWLISTED : NetworkMode
deriving DecidableEq, Fintype

inductive ProofLevel where
  | OFFLINE_STRICT : ProofLevel
  | ONLINE_ALLOWLIST_CORE_ONLY : ProofLevel
  | ONLINE_ALLOWLIST_WITH_OS_FIREWALL_PROFILE : ProofLevel
deriving DecidableEq, Fintype

inductive PinningLevel where
  | CRYPTO_PINNED : PinningLevel
  | VERSION_PINNED : PinningLevel
  | NAME_ONLY : PinningLevel
deriving DecidableEq, Fintype

/-! ## Export gate (policy/export_gate.rs) -/

inductive ExportBlockReason where
  | EVAL_FAILED : ExportBlockReason
  | MISSING_CITATIONS : ExportBlockReason
  | MISSING_REDACTIONS : ExportBlockReason
  | INSUFFICIENT_PINNING : ExportBlockReason
  | OFFLINE_PROOF_INSUFFICIENT : ExportBlockReason
  | DETERMINISM_FAILED : ExportBlockReason
  | BUNDLE_VALIDATION_FAILED : ExportBlockReason
deriving DecidableEq

structure ExportGateInputs where
  policy_mode : PolicyMode
  pinning_level : PinningLevel
  citations_required_passed : Bool
  redactions_required_passed : Bool
  blocker_gate_failures : List String
  determinism_passed : Bool
  network_mode : NetworkMode
  proof_level : ProofLevel

/-- `evaluate_export_gate`, translated clause by clause
(`Result<(), ExportBlockReason>` becomes `Except ExportBlockReason Unit`). -/
def evaluate_export_gate (i : ExportGateInputs) : Except ExportBlockReason Unit :=
  if ¬ i.blocker_gate_failures.isEmpty then .error .EVAL_FAILED
  else if ¬ i.determinism_passed then .error .DETERMINISM_FAILED
  else
    let pin_ok : Bool :=
      match i.policy_mode with
      | .STRICT | .BALANCED =>
          i.pinning_level == .CRYPTO_PINNED || i.pinning_level == .VERSION_PINNED
      | .DRAFT_ONLY => true
    if ¬ pin_ok then .error .INSUFFICIENT_PINNING
    else if i.policy_mode = .STRICT ∧ ¬ i.citations_required_passed then
      .error .MISSING_CITATIONS
    else if (i.policy_mode = .STRICT ∨ i.policy_mode = .BALANCED)
        ∧ ¬ i.redactions_required_passed then
      .error .MISSING_REDACTIONS
    else if i.policy_mode = .STRICT
        ∧ (i.network_mode ≠ .OFFLINE ∨ i.proof_level ≠ .OFFLINE_STRICT) then
      .error .OFFLINE_PROOF_INSUFFICIENT
    else .ok ()

/-- The decision order exactly as the specification claim words it: first
failing rule wins, in the order blocker failures, determinism, pinning,
citations, redactions, offline proof; `NAME_ONLY` pinning fails only under
STRICT or BALANCED. -/
def exportGateDecisionSpec (i : ExportGateInputs) : Except ExportBlockReason Unit :=
  if i.blocker_gate_failures ≠ [] then .error .EVAL_FAILED
  else if i.determinism_passed = false then .error .DETERMINISM_FAILED
  else if i.pinning_level = .NAME_ONLY
      ∧ (i.policy_mode = .STRICT ∨ i.policy_mode = .BALANCED) then
    .error .INSUFFICIENT_PINNING
  else if i.policy_mode = .STRICT ∧ i.citations_required_passed = false then
    .error .MISSING_CITATIONS
  else if (i.policy_mode = .STRICT ∨ i.policy_mode = .BALANCED)
      ∧ i.redactions_required_passed = false then
    .error .MISSING_REDACTIONS
  else if i.policy_mode = .STRICT
      ∧ (i.network_mode ≠ .OFFLINE ∨ i.proof_level ≠ .OFFLINE_STRICT) then
    .error .OFFLINE_PROOF_INSUFFICIENT
  else .ok ()

/-- The gate with the blocker list abstracted to its emptiness, over finite
inputs only (used to decide the monotonicity claim exhaustively). -/
def gateCore (blockersEmpty : Bool) (mode : PolicyMode) (pin : PinningLevel)
    (cit red det : Bool) (net : NetworkMode) (lvl : ProofLevel) :
    Except ExportBlockReason Unit :=
  if ¬ blockersEmpty then .error .EVAL_FAILED
  else if ¬ det then .error .DETERMINISM_FAILED
  else
    let pin_ok : Bool :=
      match mode with
      | .STRICT | .BALANCED => pin == .CRYPTO_PINNED || pin == .VERSION_PINNED
      | .DRAFT_ONLY => true
    if ¬ pin_ok then .error .INSUFFICIENT_PINNING
    else if mode = .STRICT ∧ ¬ cit then .error .MISSING_CITATIONS
    else if (mode = .STRICT ∨ mode = .BALANCED) ∧ ¬ red then
      .error .MISSING_REDACTIONS
    else if mode = .STRICT ∧ (net ≠ .OFFLINE ∨ lvl ≠ .OFFLINE_STRICT) then
      .error .OFFLINE_PROOF_INSUFFICIENT
    else .ok ()

/-- Strictness rank of a policy mode: DRAFT_ONLY < BALANCED < STRICT. -/
def policyRank : PolicyMode → Nat
  | .DRAFT_ONLY => 0
  | .BALANCED => 1
  | .STRICT => 2

/-! ## Egress policy (policy/egress.rs, policy/allowlist.rs)

`url::Url` is external; a URL value is modelled by the observations the code
makes of it: `scheme()`, `host_str()`, `port_or_known_default()`, `path()`.
`idna::domain_to_ascii` is likewise external and enters as a parameter. -/

structure Url where
  scheme : String
  host_str : Option String
  port_or_known_default : Option Nat
  path : String
deriving DecidableEq

structure AllowlistEntry where
  scheme : String
  host : String
  port : Nat
  path_pfx : Option String
  purpose : String
  policy_pack_id : String
  policy_pack_version : String
deriving DecidableEq

/-- `char::to_ascii_lowercase`. -/
def asciiLowerChar (c : Char) : Char :=
  if 65 ≤ c.toNat ∧ c.toNat ≤ 90 then Char.ofNat (c.toNat + 32) else c

/-- `str::to_ascii_lowercase`. -/
def asciiLower (s : String) : String := String.mk (s.data.map asciiLowerChar)

/-- `AllowlistEntry::matches_url` (the `path_pfx` field holds the source's
`path_prefix`). -/
def matches_url (domainToAscii : String → Option String) (e : AllowlistEntry)
    (url : Url) : Bool :=
  let scheme := asciiLower url.scheme
  match url.host_str with
  | none => false
  | some h =>
      match domainToAscii h with
      | none => false
      | some x =>
          let host := asciiLower x
          let port := url.port_or_known_default.getD
            (if scheme = "https" then 443 else 80)
          if ¬ (scheme = e.scheme) ∨ ¬ (host = e.host) ∨ ¬ (port = e.port) then
            false
          else
            match AllowlistEntry.path_pfx e with
            | some pp => strStartsWith url.path pp
            | none => true

inductive EgressDecision where
  | Allowed (allowlist_rule_id : String)
  | Blocked (reason : String)
deriving DecidableEq

structure EgressPolicy where
  network_mode : NetworkMode
  proof_level : ProofLevel
  allowlist : List AllowlistEntry

/-- `format!("ALW{:04}", idx)`: zero-pad the decimal index to width four. -/
def alwRuleId (idx : Nat) : String :=
  "ALW" ++ String.mk (List.replicate (4 - (natDigits idx).length) '0' ++ natDigits idx)

/-- The allowlist scan of `EgressClient::decide` with its running index. -/
def egressScan (domainToAscii : String → Option String) (url : Url) :
    Nat → List AllowlistEntry → EgressDecision
  | _, [] => .Blocked "NOT_ALLOWLISTED"
  | idx, e :: rest =>
      if matches_url domainToAscii e url then .Allowed (alwRuleId idx)
      else egressScan domainToAscii url (idx + 1) rest

/-- `EgressClient::decide` (it never returns an error in the source, so the
`CoreResult` wrapper is dropped). -/
def egressDecide (domainToAscii : String → Option String)
    (policy : EgressPolicy) (url : Url) : EgressDecision :=
  match policy.network_mode with
  | .OFFLINE => .Blocked "OFFLINE_MODE"
  | .ONLINE_ALLOWLISTED => egressScan domainToAscii url 0 policy.allowlist

/-! ## Loopback enforcement (adapters/loopback.rs, adapters/interface.rs)

`Url::parse` and `str::parse::<IpAddr>` are external parsers and enter as
parameters; `IpAddr::is_loopback` is translated from the standard library:
an IPv4 address is loopback iff its first octet is 127, an IPv6 address iff
it equals ::1. -/

inductive IpAddr where
  | v4 (a b c d : Nat)
  | v6 (bits : Nat)
deriving DecidableEq

def IpAddr.is_loopback : IpAddr → Bool
  | .v4 a _ _ _ => a == 127
  | .v6 bits => bits == 1

/-- `is_loopback_endpoint`. -/
def is_loopback_endpoint (parseUrl : String → Option Url)
    (parseIp : String → Option IpAddr) (endpoint : String) :
    Except CoreError Bool :=
  match parseUrl endpoint with
  | none => .error (.InvalidInput "invalid adapter endpoint URL")
  | some url =>
      match url.host_str with
      | none => .error (.InvalidInput "adapter endpoint missing host")
      | some host =>
          match parseIp host with
          | none => .error (.InvalidInput "adapter endpoint host must be an IP address")
          | some ip => .ok ip.is_loopback

/-- `enforce_loopback_endpoint`. -/
def enforce_loopback_endpoint (parseUrl : String → Option Url)
    (parseIp : String → Option IpAddr) (endpoint : String) :
    Except CoreError Unit :=
  match is_loopback_endpoint parseUrl parseIp endpoint with
  | .error e => .error e
  | .ok false =>
      .error (.PolicyBlocked "adapter endpoint rejected: not loopback (127.0.0.1/::1)")
  | .ok true => .ok ()

/-- Whether an outcome is a `PolicyBlocked` rejection. -/
def isPolicyBlockedErr : Except CoreError Unit → Bool
  | .error (.PolicyBlocked _) => true
  | _ => false

/-! ## Run-id derivation (determinism/run_id.rs) -/

/-- `char::is_whitespace`: the Unicode White_Space code points. -/
def rustIsWhitespace (c : Char) : Bool :=
  c.toNat = 32 || (9 ≤ c.toNat && c.toNat ≤ 13) || c.toNat = 0x85
    || c.toNat = 0xA0 || c.toNat = 0x1680
    || (0x2000 ≤ c.toNat && c.toNat ≤ 0x200A) || c.toNat = 0x2028
    || c.toNat = 0x2029 || c.toNat = 0x202F || c.toNat = 0x205F
    || c.toNat = 0x3000

/-- `str::trim`: strip Unicode whitespace from both ends. -/
def rustTrim (cs : List Char) : List Char :=
  ((cs.dropWhile rustIsWhitespace).reverse.dropWhile rustIsWhitespace).reverse

/-- `run_id_from_manifest_inputs_fingerprint_hex32`.  The guard is Rust's
`hex.len() < 32 || !hex.chars().take(32).all(is_ascii_hexdigit)` (`len` is the
byte length); when it passes, the first 32 characters are ASCII hex digits, so
the byte slice `hex[..32]` is exactly those characters. -/
def run_id_from_manifest_inputs_fingerprint_hex32 (s : String) :
    Except CoreError String :=
  let hex := rustTrim s.data
  if utf8Len hex < 32 ∨ ¬ ((hex.take 32).all is_ascii_hexdigit) then
    .error (.InvalidInput "manifest_inputs_fingerprint must be hex with length >= 32")
  else .ok ("r_" ++ String.mk ((hex.take 32).map asciiLowerChar))

/-! ## Deterministic zip builder (determinism/zip.rs)

The directory walk is modelled as the list of filesystem entries `WalkDir`
yields, in whatever order it yields them (the determinism theorem quantifies
over that order).  Paths are component lists relative to the walk root; the
root itself appears as the empty component list and is skipped, as in the
source.  The zip container encoding and SHA-256 are external and enter as
parameters; the archive is modelled at the record level the `zip` crate is
driven with: per entry the name, method, level, timestamp, permissions and
data, plus the archive comment. -/

structure FsEntry where
  rel : List String
  isDir : Bool
  content : List Nat
deriving DecidableEq

/-- Does the string end with a slash (`str::ends_with('/')`). -/
def strEndsWithSlash (s : String) : Bool :=
  match s.data.getLast? with
  | some c => c = '/'
  | none => false

/-- The relative name an entry is stored under: components joined with `/`,
directories given a trailing slash. -/
def relNameOf (e : FsEntry) : String :=
  let s := String.intercalate "/" e.rel
  if e.isDir then (if strEndsWithSlash s then s else s ++ "/") else s

structure ZipEntryRec where
  name : String
  method : Nat
  level : Option Nat
  time : Nat × Nat × Nat × Nat × Nat × Nat
  perms : Nat
  data : List Nat
deriving DecidableEq

structure ZipArchiveRec where
  entries : List ZipEntryRec
  comment : String
deriving DecidableEq

/-- The fixed timestamp 1980-01-01 00:00:00. -/
def fixedZipTime : Nat × Nat × Nat × Nat × Nat × Nat := (1980, 1, 1, 0, 0, 0)

/-- DEFLATE's method number in the zip format. -/
def methodDeflated : Nat := 8

/-- Walk results with their stored names, the root entry skipped. -/
def walkToNamed (walk : List FsEntry) : List (FsEntry × String) :=
  walk.filterMap (fun e => if e.rel = [] then none else some (e, relNameOf e))

/-- `entries.sort_by(|a, b| a.1.cmp(&b.1))`: order on the stored name. -/
def nameLe (a b : FsEntry × String) : Bool := strLe a.2 b.2

/-- One archive entry record: directories (trailing slash) get permissions
0o755 and no data, files 0o644 and their contents; every entry uses DEFLATE
level 9 and the fixed timestamp. -/
def mkZipRecord (p : FsEntry × String) : ZipEntryRec :=
  if strEndsWithSlash p.2 then
    { name := p.2, method := methodDeflated, level := some 9,
      time := fixedZipTime, perms := 0o755, data := [] }
  else
    { name := p.2, method := methodDeflated, level := some 9,
      time := fixedZipTime, perms := 0o644, data := p.1.content }

/-- `zip_dir_deterministic`: walk, sort by stored name, write the records with
fixed metadata and an empty comment, return the archive and the SHA-256 of its
encoded bytes. -/
def zip_dir_deterministic (encode : ZipArchiveRec → List Nat)
    (sha : List Nat → String) (walk : List FsEntry) : ZipArchiveRec × String :=
  let archive : ZipArchiveRec :=
    { entries := ((walkToNamed walk).mergeSort nameLe).map mkZipRecord,
      comment := "" }
  (archive, sha (encode archive))

/-! ## Validator artifact-hashes check (validator/mod.rs, check_artifact_hashes)

Modelled from the parsed CSV rows on: the zip entry set is the list of stored
paths, reading an entry's bytes is a parameter, as is SHA-256. -/

structure CheckResult where
  check_id : String
  severity : String
  result : String
  message : String
deriving DecidableEq

def passCheck (check_id : String) : CheckResult :=
  ⟨check_id, "BLOCKER", "PASS", "ok"⟩

def failCheck (check_id msg : String) : CheckResult :=
  ⟨check_id, "BLOCKER", "FAIL", msg⟩

structure CsvRow where
  artifact_id : String
  bundle_rel_path : String
  sha256 : String
  bytes : Nat
deriving DecidableEq

/-- Row order: by `(artifact_id, bundle_rel_path)` (the tuple `cmp` in the
source's sort). -/
def rowLe (a b : CsvRow) : Bool :=
  strLt a.artifact_id b.artifact_id
    || (a.artifact_id == b.artifact_id && strLe a.bundle_rel_path b.bundle_rel_path)

/-- `inputs_snapshot/artifacts/<artifact_id>/bytes`. -/
def inputsBytesPath (artifact_id : String) : String :=
  "inputs_snapshot/artifacts/" ++ artifact_id ++ "/bytes"

/-- The per-row loop of `check_artifact_hashes`: skip rows with an empty path;
require the path to exist in the archive, its bytes to read, the byte length
and SHA-256 to match; under `INCLUDE_INPUT_BYTES`, additionally require the
input-bytes entry for rows whose `artifact_id` does not start with `o:`. -/
def checkRowsLoop (readEntry : String → Except String (List Nat))
    (sha : List Nat → String) (paths : List String) (profile : String) :
    List CsvRow → CheckResult
  | [] => passCheck "CHK.ARTIFACT_HASHES.VERIFY"
  | r :: rest =>
      if r.bundle_rel_path = "" then checkRowsLoop readEntry sha paths profile rest
      else if ¬ (paths.contains r.bundle_rel_path) then
        failCheck "CHK.ARTIFACT_HASHES.VERIFY"
          ("missing path listed in csv: " ++ r.bundle_rel_path)
      else
        match readEntry r.bundle_rel_path with
        | .error e =>
            failCheck "CHK.ARTIFACT_HASHES.VERIFY"
              ("failed to read " ++ r.bundle_rel_path ++ ": " ++ e)
        | .ok entry_bytes =>
            if ¬ (entry_bytes.length = r.bytes) then
              failCheck "CHK.ARTIFACT_HASHES.VERIFY"
                ("bytes mismatch for " ++ r.bundle_rel_path
                  ++ " (expected " ++ toString r.bytes ++ ")")
            else if ¬ (sha entry_bytes = r.sha256) then
              failCheck "CHK.ARTIFACT_HASHES.VERIFY"
                ("sha256 mismatch for " ++ r.bundle_rel_path)
            else if profile = "INCLUDE_INPUT_BYTES"
                ∧ ¬ (strStartsWith r.artifact_id "o:")
                ∧ ¬ (paths.contains (inputsBytesPath r.artifact_id)) then
              failCheck "CHK.ARTIFACT_HASHES.VERIFY"
                ("missing input bytes at " ++ inputsBytesPath r.artifact_id)
            else checkRowsLoop readEntry sha paths profile rest

/-- `check_artifact_hashes` from the parsed rows on: the rows must be sorted
by `(artifact_id, bundle_rel_path)` (the source sorts a copy with a stable
sort and compares), then the per-row loop runs. -/
def check_artifact_hashes (readEntry : String → Except String (List Nat))
    (sha : List Nat → String) (paths : List String) (profile : String)
    (rows : List CsvRow) : CheckResult :=
  if ¬ (rows.mergeSort rowLe = rows) then
    failCheck "CHK.ARTIFACT_HASHES.VERIFY" "rows not sorted by artifact_id then path"
  else checkRowsLoop readEntry sha paths profile rows

/-! ======================================================================
Theorems.  Everything from here on is proof: first the supporting lemma
library (string order, sorted association lists, the canonical serializer's
injectivity), then one theorem per specification claim, each with its
witness.
====================================================================== -/

/-! ## String order: the executable comparison agrees with the order -/

theorem char_lt_iff_toNat (a b : Char) : a < b ↔ a.toNat < b.toNat :=
  Char.lt_iff_val_lt_val.trans Iff.rfl

theorem char_eq_of_toNat (a b : Char) (h : a.toNat = b.toNat) : a = b :=
  Char.eq_of_val_eq (UInt32.toNat.inj h)

theorem charListLt_iff : ∀ (l1 l2 : List Char),
    charListLt l1 l2 = true ↔ List.Lex (· < ·) l1 l2 := by
  intro l1
  induction l1 with
  | nil =>
    intro l2
    cases l2 with
    | nil =>
      simp only [charListLt, Bool.false_eq_true, false_iff]
      intro h; cases h
    | cons b bs =>
      simp only [charListLt, true_iff]
      exact List.Lex.nil
  | cons a as ih =>
    intro l2
    cases l2 with
    | nil =>
      simp only [charListLt, Bool.false_eq_true, false_iff]
      intro h; cases h
    | cons b bs =>
      simp only [charListLt, Bool.or_eq_true, Bool.and_eq_true, decide_eq_true_eq]
      constructor
      · rintro (hlt | ⟨heq, hrec⟩)
        · exact List.Lex.rel ((char_lt_iff_toNat a b).mpr hlt)
        · have hab : a = b := char_eq_of_toNat a b heq
          subst hab
          exact List.Lex.cons ((ih bs).mp hrec)
      · intro h
        cases h with
        | cons hrec => exact Or.inr ⟨rfl, (ih bs).mpr hrec⟩
        | rel hab => exact Or.inl ((char_lt_iff_toNat a b).mp hab)

theorem strLt_iff (a b : String) : strLt a b = true ↔ a < b := by
  rw [String.lt_iff_toList_lt]
  exact charListLt_iff a.data b.data

theorem strLe_iff (a b : String) : strLe a b = true ↔ a ≤ b := by
  simp only [strLe, Bool.or_eq_true, beq_iff_eq, strLt_iff]
  rw [le_iff_lt_or_eq]

/-! ## Sorted association lists -/

theorem jlookup_eq_none_iff (k : String) :
    ∀ l : List (String × Json), jlookup k l = none ↔ k ∉ l.map Prod.fst := by
  intro l
  induction l with
  | nil => simp [jlookup]
  | cons p t ih =>
    obtain ⟨k1, v⟩ := p
    by_cases hk : k1 = k
    · subst hk
      simp [jlookup]
    · simp [jlookup, hk, ih, Ne.symm hk]

theorem jlookup_eq_some_mem {k : String} {v : Json} :
    ∀ l : List (String × Json), jlookup k l = some v → (k, v) ∈ l := by
  intro l
  induction l with
  | nil => simp [jlookup]
  | cons p t ih =>
    obtain ⟨k1, w⟩ := p
    by_cases hk : k1 = k
    · subst hk
      intro h
      rw [jlookup, if_pos rfl] at h
      injection h with h1
      subst h1
      exact List.mem_cons_self _ _
    · intro h
      rw [jlookup, if_neg hk] at h
      exact List.mem_cons_of_mem _ (ih h)

theorem jlookup_some_of_mem_nodup {k : String} {v : Json} :
    ∀ l : List (String × Json), (k, v) ∈ l → (l.map Prod.fst).Nodup →
      jlookup k l = some v := by
  intro l
  induction l with
  | nil => simp
  | cons p t ih =>
    obtain ⟨k1, w⟩ := p
    intro hmem hnd
    simp only [List.map_cons, List.nodup_cons] at hnd
    rcases List.mem_cons.mp hmem with heq | htail
    · injection heq with h1 h2
      subst h1; subst h2
      rw [jlookup, if_pos rfl]
    · have hk1 : k1 ≠ k := by
        rintro rfl
        exact hnd.1 (List.mem_map_of_mem Prod.fst htail)
      rw [jlookup, if_neg hk1]
      exact ih htail hnd.2

theorem keysNodup_iff :
    ∀ l : List (String × Json), keysNodup l = true ↔ (l.map Prod.fst).Nodup := by
  intro l
  induction l with
  | nil => simp [keysNodup]
  | cons p t ih =>
    obtain ⟨k, v⟩ := p
    simp only [keysNodup, Bool.and_eq_true, Option.isNone_iff_eq_none,
      jlookup_eq_none_iff, List.map_cons, List.nodup_cons, ih]

theorem mem_insertSorted {p : String × Json} {k : String} {v : Json} :
    ∀ l : List (String × Json), p ∈ insertSorted k v l → p = (k, v) ∨ p ∈ l := by
  intro l
  induction l with
  | nil => simp [insertSorted]
  | cons q t ih =>
    obtain ⟨k1, v1⟩ := q
    simp only [insertSorted]
    split
    · intro h
      rcases List.mem_cons.mp h with h1 | h2
      · exact Or.inl h1
      · exact Or.inr h2
    · split
      · intro h
        rcases List.mem_cons.mp h with h1 | h2
        · exact Or.inl h1
        · exact Or.inr (List.mem_cons_of_mem _ h2)
      · intro h
        rcases List.mem_cons.mp h with h1 | h2
        · exact Or.inr (h1 ▸ List.mem_cons_self _ _)
        · rcases ih h2 with h3 | h4
          · exact Or.inl h3
          · exact Or.inr (List.mem_cons_of_mem _ h4)

theorem insertSorted_perm_fresh (k : String) (v : Json) :
    ∀ l : List (String × Json), k ∉ l.map Prod.fst →
      (insertSorted k v l).Perm ((k, v) :: l) := by
  intro l
  induction l with
  | nil => simp [insertSorted]
  | cons q t ih =>
    obtain ⟨k1, v1⟩ := q
    intro hfresh
    simp only [List.map_cons, List.mem_cons, not_or] at hfresh
    simp only [insertSorted]
    split
    · exact List.Perm.refl _
    · split
      · exact absurd ‹k = k1› hfresh.1
      · exact (List.Perm.cons _ (ih hfresh.2)).trans (List.Perm.swap _ _ _)

theorem insertSorted_sorted (k : String) (v : Json) :
    ∀ l : List (String × Json),
      List.Sorted (fun p q : String × Json => p.1 < q.1) l →
      List.Sorted (fun p q : String × Json => p.1 < q.1) (insertSorted k v l) := by
  intro l
  induction l with
  | nil => simp [insertSorted]
  | cons q t ih =>
    obtain ⟨k1, v1⟩ := q
    intro hs
    rw [List.sorted_cons] at hs
    simp only [insertSorted]
    split
    · rename_i hlt
      rw [List.sorted_cons]
      refine ⟨?_, List.sorted_cons.mpr hs⟩
      intro b hb
      rcases List.mem_cons.mp hb with h1 | h2
      · subst h1; exact (strLt_iff _ _).mp hlt
      · exact lt_trans ((strLt_iff _ _).mp hlt) (hs.1 b h2)
    · split
      · rename_i heq
        subst heq
        rw [List.sorted_cons]
        exact ⟨hs.1, hs.2⟩
      · rename_i hnlt hne
        rw [List.sorted_cons]
        refine ⟨?_, ih hs.2⟩
        intro b hb
        rcases mem_insertSorted _ hb with h1 | h2
        · subst h1
          have h3 : k1 ≤ k := not_lt.mp (fun hc => hnlt ((strLt_iff _ _).mpr hc))
          exact lt_of_le_of_ne h3 (fun hc => hne hc.symm)
        · exact hs.1 b h2

theorem sortPairs_append_singleton (l : List (String × Json)) (k : String) (v : Json) :
    sortPairs (l ++ [(k, v)]) = insertSorted k v (sortPairs l) := by
  simp [sortPairs, List.foldl_append]

theorem sortPairs_sorted :
    ∀ l : List (String × Json),
      List.Sorted (fun p q : String × Json => p.1 < q.1) (sortPairs l) := by
  intro l
  induction l using List.reverseRecOn with
  | nil => simp [sortPairs]
  | append_singleton t p ih =>
    obtain ⟨k, v⟩ := p
    rw [sortPairs_append_singleton]
    exact insertSorted_sorted k v _ ih

theorem mem_sortPairs {q : String × Json} :
    ∀ l : List (String × Json), q ∈ sortPairs l → q ∈ l := by
  intro l
  induction l using List.reverseRecOn with
  | nil => simp [sortPairs]
  | append_singleton t p ih =>
    obtain ⟨k, v⟩ := p
    rw [sortPairs_append_singleton]
    intro h
    rcases mem_insertSorted _ h with h1 | h2
    · subst h1; exact List.mem_append_right _ (List.mem_cons_self _ _)
    · exact List.mem_append_left _ (ih h2)

theorem sortPairs_perm :
    ∀ l : List (String × Json), (l.map Prod.fst).Nodup → (sortPairs l).Perm l := by
  intro l
  induction l using List.reverseRecOn with
  | nil => simp [sortPairs]
  | append_singleton t p ih =>
    obtain ⟨k, v⟩ := p
    intro hnd
    rw [List.map_append, List.nodup_append] at hnd
    obtain ⟨hnt, _, hdisj⟩ := hnd
    have hfresh : k ∉ (sortPairs t).map Prod.fst := by
      intro hmem
      rcases List.mem_map.mp hmem with ⟨q, hq, hfst⟩
      have : q ∈ t := mem_sortPairs t hq
      exact hdisj (hfst ▸ List.mem_map_of_mem Prod.fst this) (by simp)
    rw [sortPairs_append_singleton]
    exact ((insertSorted_perm_fresh k v _ hfresh).trans
      (List.Perm.cons _ (ih hnt))).trans (List.perm_append_singleton _ _).symm

theorem jlookup_perm (k : String) {l1 l2 : List (String × Json)}
    (h : l1.Perm l2) (hnd : (l1.map Prod.fst).Nodup) :
    jlookup k l1 = jlookup k l2 := by
  have hnd2 : (l2.map Prod.fst).Nodup := (h.map Prod.fst).nodup_iff.mp hnd
  cases hv : jlookup k l1 with
  | some v =>
    exact (jlookup_some_of_mem_nodup l2 (h.mem_iff.mp (jlookup_eq_some_mem l1 hv)) hnd2).symm
  | none =>
    have : k ∉ l2.map Prod.fst := by
      intro hmem
      exact ((jlookup_eq_none_iff k l1).mp hv) ((h.map Prod.fst).mem_iff.mpr hmem)
    exact ((jlookup_eq_none_iff k l2).mpr this).symm

theorem jlookup_none_of_lt_sorted {k k2 : String} {v2 : Json}
    {t : List (String × Json)}
    (hs : List.Sorted (fun p q : String × Json => p.1 < q.1) ((k2, v2) :: t))
    (hlt : k < k2) : jlookup k ((k2, v2) :: t) = none := by
  rw [jlookup_eq_none_iff]
  intro hmem
  rcases List.mem_map.mp hmem with ⟨q, hq, hfst⟩
  rcases List.mem_cons.mp hq with h1 | h2
  · subst h1
    simp only at hfst
    exact absurd (hfst ▸ hlt) (lt_irrefl _)
  · have := (List.sorted_cons.mp hs).1 q h2
    simp only at this
    rw [hfst] at this
    exact absurd (lt_trans hlt this) (lt_irrefl _)

theorem eq_of_sorted_of_lookup_eq :
    ∀ l1 l2 : List (String × Json),
      List.Sorted (fun p q : String × Json => p.1 < q.1) l1 →
      List.Sorted (fun p q : String × Json => p.1 < q.1) l2 →
      (∀ k, jlookup k l1 = jlookup k l2) → l1 = l2 := by
  intro l1
  induction l1 with
  | nil =>
    intro l2 _ hs2 hl
    cases l2 with
    | nil => rfl
    | cons p t =>
      obtain ⟨k2, v2⟩ := p
      have := hl k2
      simp [jlookup] at this
  | cons p t1 ih =>
    obtain ⟨k1, v1⟩ := p
    intro l2 hs1 hs2 hl
    cases l2 with
    | nil =>
      have := hl k1
      simp [jlookup] at this
    | cons q t2 =>
      obtain ⟨k2, v2⟩ := q
      have hk : k1 = k2 := by
        rcases lt_trichotomy k1 k2 with hlt | heq | hgt
        · have h1 := hl k1
          rw [jlookup, if_pos rfl, jlookup_none_of_lt_sorted hs2 hlt] at h1
          exact absurd h1 (by simp)
        · exact heq
        · have h1 := hl k2
          rw [jlookup_none_of_lt_sorted hs1 hgt, jlookup, if_pos rfl] at h1
          exact absurd h1 (by simp)
      subst hk
      have hv : v1 = v2 := by
        have h1 := hl k1
        rw [jlookup, if_pos rfl, jlookup, if_pos rfl] at h1
        injection h1
      subst hv
      have htail : ∀ k, jlookup k t1 = jlookup k t2 := by
        intro k
        by_cases hk : k = k1
        · subst hk
          have hn1 : jlookup k t1 = none := by
            rw [jlookup_eq_none_iff]
            intro hmem
            rcases List.mem_map.mp hmem with ⟨q, hq, hfst⟩
            have := (List.sorted_cons.mp hs1).1 q hq
            simp only at this
            rw [hfst] at this
            exact absurd this (lt_irrefl _)
          have hn2 : jlookup k t2 = none := by
            rw [jlookup_eq_none_iff]
            intro hmem
            rcases List.mem_map.mp hmem with ⟨q, hq, hfst⟩
            have := (List.sorted_cons.mp hs2).1 q hq
            simp only at this
            rw [hfst] at this
            exact absurd this (lt_irrefl _)
          rw [hn1, hn2]
        · have h1 := hl k
          rwa [jlookup, if_neg (Ne.symm hk), jlookup, if_neg (Ne.symm hk)] at h1
      exact congrArg (List.cons (k1, v1))
        (ih t2 (List.sorted_cons.mp hs1).2 (List.sorted_cons.mp hs2).2 htail)

/-! ## Characterizing the normalizer -/

theorem sizeOf_pos_json : ∀ v : Json, 0 < sizeOf v := by
  intro v
  cases v <;> simp

theorem sizeOf_mem_list {x : Json} {xs : List Json} (h : x ∈ xs) :
    sizeOf x < sizeOf (Json.arr xs) := by
  have := List.sizeOf_lt_of_mem h
  simp only [Json.arr.sizeOf_spec]
  omega

theorem sizeOf_mem_pairs {k : String} {v : Json} {kvs : List (String × Json)}
    (h : (k, v) ∈ kvs) : sizeOf v < sizeOf (Json.obj kvs) := by
  have h1 := List.sizeOf_lt_of_mem h
  have h2 : sizeOf (k, v) = 1 + sizeOf k + sizeOf v := by simp
  simp only [Json.obj.sizeOf_spec]
  omega

theorem normalizeList_eq_aux (xs : List Json)
    (ih : ∀ x ∈ xs, normalize_value x =
      if hasFloat x = true then
        .error (.DeterminismViolationError "canonical JSON forbids non-integer numbers")
      else .ok (nfv x)) :
    normalizeList xs =
      if hasFloatList xs = true then
        .error (.DeterminismViolationError "canonical JSON forbids non-integer numbers")
      else .ok (nfvList xs) := by
  induction xs with
  | nil => simp [normalizeList, hasFloatList, nfvList]
  | cons x t iht =>
    rw [normalizeList, ih x (List.mem_cons_self _ _),
      iht (fun y hy => ih y (List.mem_cons_of_mem _ hy))]
    cases hx : hasFloat x <;> cases ht : hasFloatList t <;>
      simp [hasFloatList, hx, ht, nfvList]

theorem normalizePairs_eq_aux (kvs : List (String × Json))
    (ih : ∀ p ∈ kvs, normalize_value p.2 =
      if hasFloat p.2 = true then
        .error (.DeterminismViolationError "canonical JSON forbids non-integer numbers")
      else .ok (nfv p.2)) :
    normalizePairs kvs =
      if hasFloatPairs kvs = true then
        .error (.DeterminismViolationError "canonical JSON forbids non-integer numbers")
      else .ok (nfvPairs kvs) := by
  induction kvs with
  | nil => simp [normalizePairs, hasFloatPairs, nfvPairs]
  | cons p t iht =>
    obtain ⟨k, v⟩ := p
    rw [normalizePairs, ih (k, v) (List.mem_cons_self _ _),
      iht (fun q hq => ih q (List.mem_cons_of_mem _ hq))]
    cases hx : hasFloat v <;> cases ht : hasFloatPairs t <;>
      simp [hasFloatPairs, hx, ht, nfvPairs]

theorem normalize_value_eq : ∀ v : Json,
    normalize_value v =
      if hasFloat v = true then
        .error (.DeterminismViolationError "canonical JSON forbids non-integer numbers")
      else .ok (nfv v) := by
  intro v
  generalize hn : sizeOf v = n
  induction n using Nat.strong_induction_on generalizing v with
  | _ n ih =>
    subst hn
    cases v with
    | null => simp [normalize_value, hasFloat, nfv]
    | bool b => simp [normalize_value, hasFloat, nfv]
    | int m => simp [normalize_value, hasFloat, nfv]
    | floatNum => simp [normalize_value, hasFloat]
    | str s => simp [normalize_value, hasFloat, nfv]
    | arr xs =>
      have hlist := normalizeList_eq_aux xs
        (fun x hx => ih (sizeOf x) (sizeOf_mem_list hx) x rfl)
      rw [normalize_value, hlist]
      cases hx : hasFloatList xs <;> simp [hasFloat, hx, nfv]
    | obj kvs =>
      have hpairs := normalizePairs_eq_aux kvs
        (fun p hp => ih (sizeOf p.2)
          (by obtain ⟨k, v⟩ := p; exact sizeOf_mem_pairs hp) p.2 rfl)
      rw [normalize_value, hpairs]
      cases hx : hasFloatPairs kvs <;> simp [hasFloat, hx, nfv]

theorem to_canonical_bytes_eq (v : Json) :
    to_canonical_bytes v =
      if hasFloat v = true then
        .error (.DeterminismViolationError "canonical JSON forbids non-integer numbers")
      else .ok (ser (nfv v)) := by
  rw [to_canonical_bytes, normalize_value_eq]
  cases h : hasFloat v <;> simp

/-! ## Float-freeness and well-formedness carried through the normal form -/

theorem hasFloatList_iff_mem : ∀ xs : List Json,
    hasFloatList xs = false ↔ ∀ x ∈ xs, hasFloat x = false := by
  intro xs
  induction xs with
  | nil => simp [hasFloatList]
  | cons x t ih => simp [hasFloatList, ih]

theorem hasFloatPairs_iff_mem : ∀ kvs : List (String × Json),
    hasFloatPairs kvs = false ↔ ∀ p ∈ kvs, hasFloat p.2 = false := by
  intro kvs
  induction kvs with
  | nil => simp [hasFloatPairs]
  | cons p t ih =>
    obtain ⟨k, v⟩ := p
    simp [hasFloatPairs, ih]

theorem nfvList_eq_map : ∀ xs : List Json, nfvList xs = xs.map nfv := by
  intro xs
  induction xs with
  | nil => simp [nfvList]
  | cons x t ih => simp [nfvList, ih]

theorem nfvPairs_eq_map : ∀ kvs : List (String × Json),
    nfvPairs kvs = kvs.map (fun p => (p.1, nfv p.2)) := by
  intro kvs
  induction kvs with
  | nil => simp [nfvPairs]
  | cons p t ih =>
    obtain ⟨k, v⟩ := p
    simp [nfvPairs, ih]

theorem hasFloat_nfv : ∀ v : Json, hasFloat v = false → hasFloat (nfv v) = false := by
  intro v
  generalize hn : sizeOf v = n
  induction n using Nat.strong_induction_on generalizing v with
  | _ n ih =>
    subst hn
    cases v with
    | null => simp [nfv, hasFloat]
    | bool b => simp [nfv, hasFloat]
    | int m => simp [nfv, hasFloat]
    | floatNum => simp [hasFloat]
    | str s => simp [nfv, hasFloat]
    | arr xs =>
      intro h
      rw [hasFloat] at h
      show hasFloat (Json.arr (nfvList xs)) = false
      rw [hasFloat, nfvList_eq_map]
      rw [hasFloatList_iff_mem] at h ⊢
      intro y hy
      rcases List.mem_map.mp hy with ⟨x, hx, rfl⟩
      exact ih (sizeOf x) (sizeOf_mem_list hx) x rfl (h x hx)
    | obj kvs =>
      intro h
      rw [hasFloat] at h
      show hasFloat (Json.obj (sortPairs (nfvPairs kvs))) = false
      rw [hasFloat]
      rw [hasFloatPairs_iff_mem] at h ⊢
      intro p hp
      have hmem : p ∈ nfvPairs kvs := mem_sortPairs _ hp
      rw [nfvPairs_eq_map] at hmem
      rcases List.mem_map.mp hmem with ⟨q, hq, rfl⟩
      obtain ⟨k, v⟩ := q
      exact ih (sizeOf v) (sizeOf_mem_pairs hq) v rfl (h (k, v) hq)

theorem map_fst_nfvPairs (kvs : List (String × Json)) :
    (nfvPairs kvs).map Prod.fst = kvs.map Prod.fst := by
  rw [nfvPairs_eq_map, List.map_map]
  rfl

theorem jlookup_nfvPairs (k : String) : ∀ kvs : List (String × Json),
    jlookup k (nfvPairs kvs) = (jlookup k kvs).map nfv := by
  intro kvs
  induction kvs with
  | nil => simp [nfvPairs, jlookup]
  | cons p t ih =>
    obtain ⟨k1, v⟩ := p
    by_cases hk : k1 = k
    · subst hk
      simp [nfvPairs, jlookup]
    · simp [nfvPairs, jlookup, hk, ih]

/-! ## Serializer injectivity: numeric tokens -/

theorem digitChar_toNat {d : Nat} (h : d < 10) : (digitChar d).toNat = 48 + d := by
  interval_cases d <;> decide

theorem isDigitChar_digitChar {d : Nat} (h : d < 10) : isDigitChar (digitChar d) = true := by
  interval_cases d <;> decide

theorem natDigits_ne_nil (n : Nat) : natDigits n ≠ [] := by
  rw [natDigits]
  split
  · simp
  · simp

theorem natDigits_all_digits : ∀ n : Nat, ∀ c ∈ natDigits n, isDigitChar c = true := by
  intro n
  induction n using Nat.strong_induction_on with
  | _ n ih =>
    rw [natDigits]
    split
    · rename_i h
      intro c hc
      rw [List.mem_singleton] at hc
      subst hc
      exact isDigitChar_digitChar h
    · rename_i h
      intro c hc
      rcases List.mem_append.mp hc with h1 | h2
      · exact ih (n / 10) (Nat.div_lt_self (by omega) (by omega)) c h1
      · rw [List.mem_singleton] at h2
        subst h2
        exact isDigitChar_digitChar (Nat.mod_lt _ (by omega))

theorem digitsVal_natDigits : ∀ n a : Nat,
    List.foldl (fun a c => 10 * a + (c.toNat - 48)) a (natDigits n)
      = a * 10 ^ (natDigits n).length + n := by
  intro n
  induction n using Nat.strong_induction_on with
  | _ n ih =>
    intro a
    rw [natDigits]
    split
    · rename_i h
      simp only [List.foldl_cons, List.foldl_nil, List.length_singleton]
      rw [digitChar_toNat h]
      ring_nf
      omega
    · rename_i h
      rw [List.foldl_append, ih (n / 10) (Nat.div_lt_self (by omega) (by omega)) a]
      simp only [List.foldl_cons, List.foldl_nil, List.length_append,
        List.length_singleton]
      rw [digitChar_toNat (Nat.mod_lt _ (by omega))]
      have heq : 10 * (a * 10 ^ (natDigits (n / 10)).length + n / 10)
          + (48 + n % 10 - 48)
          = a * 10 ^ ((natDigits (n / 10)).length + 1) + (10 * (n / 10) + n % 10) := by
        ring_nf
        omega
      rw [heq, Nat.div_add_mod]

theorem natDigits_inj {m n : Nat} (h : natDigits m = natDigits n) : m = n := by
  have h1 := digitsVal_natDigits m 0
  have h2 := digitsVal_natDigits n 0
  rw [h] at h1
  simp only [Nat.zero_mul, Nat.zero_add] at h1 h2
  omega

theorem natDigits_head (n : Nat) :
    ∃ c t, natDigits n = c :: t ∧ isDigitChar c = true := by
  cases hd : natDigits n with
  | nil => exact absurd hd (natDigits_ne_nil n)
  | cons c t =>
    exact ⟨c, t, rfl, natDigits_all_digits n c (hd ▸ List.mem_cons_self _ _)⟩

theorem token_split (p : Char → Bool) :
    ∀ a1 a2 r1 r2 : List Char, (∀ c ∈ a1, p c = true) → (∀ c ∈ a2, p c = true) →
    (∀ c t, r1 = c :: t → p c = false) → (∀ c t, r2 = c :: t → p c = false) →
    a1 ++ r1 = a2 ++ r2 → a1 = a2 ∧ r1 = r2 := by
  intro a1
  induction a1 with
  | nil =>
    intro a2 r1 r2 _ ha2 hr1 _ heq
    cases a2 with
    | nil => exact ⟨rfl, heq⟩
    | cons c2 t2 =>
      simp only [List.nil_append, List.cons_append] at heq
      have hfalse := hr1 c2 (t2 ++ r2) heq
      have htrue := ha2 c2 (List.mem_cons_self _ _)
      rw [htrue] at hfalse
      exact absurd hfalse (by simp)
  | cons c1 t1 ih =>
    intro a2 r1 r2 ha1 ha2 hr1 hr2 heq
    cases a2 with
    | nil =>
      simp only [List.cons_append, List.nil_append] at heq
      have hfalse := hr2 c1 (t1 ++ r1) heq.symm
      have htrue := ha1 c1 (List.mem_cons_self _ _)
      rw [htrue] at hfalse
      exact absurd hfalse (by simp)
    | cons c2 t2 =>
      simp only [List.cons_append, List.cons.injEq] at heq
      obtain ⟨hc, htail⟩ := heq
      subst hc
      obtain ⟨h1, h2⟩ := ih t2 r1 r2 (fun c hc => ha1 c (List.mem_cons_of_mem _ hc))
        (fun c hc => ha2 c (List.mem_cons_of_mem _ hc)) hr1 hr2 htail
      exact ⟨by rw [h1], h2⟩

theorem delimHead_not_digit {r : List Char} (h : delimHead r) :
    ∀ c t, r = c :: t → isDigitChar c = false := by
  intro c t hr
  subst hr
  rcases h with h1 | h1 | h1 <;> (subst h1; decide)

theorem intRepr_unamb : ∀ i1 i2 : Int, ∀ r1 r2 : List Char,
    delimHead r1 → delimHead r2 → intRepr i1 ++ r1 = intRepr i2 ++ r2 →
    i1 = i2 ∧ r1 = r2 := by
  intro i1 i2 r1 r2 h1 h2 heq
  cases i1 with
  | ofNat m =>
    cases i2 with
    | ofNat n =>
      simp only [intRepr] at heq
      obtain ⟨hd, hr⟩ := token_split isDigitChar _ _ _ _
        (natDigits_all_digits m) (natDigits_all_digits n)
        (delimHead_not_digit h1) (delimHead_not_digit h2) heq
      exact ⟨congrArg Int.ofNat (natDigits_inj hd), hr⟩
    | negSucc n =>
      simp only [intRepr, List.cons_append] at heq
      obtain ⟨c, t, hct, hdig⟩ := natDigits_head m
      rw [hct] at heq
      simp only [List.cons_append, List.cons.injEq] at heq
      rw [heq.1] at hdig
      exact absurd hdig (by decide)
  | negSucc m =>
    cases i2 with
    | ofNat n =>
      simp only [intRepr, List.cons_append] at heq
      obtain ⟨c, t, hct, hdig⟩ := natDigits_head n
      rw [hct] at heq
      simp only [List.cons_append, List.cons.injEq] at heq
      rw [← heq.1] at hdig
      exact absurd hdig (by decide)
    | negSucc n =>
      simp only [intRepr, List.cons_append, List.cons.injEq, true_and] at heq
      obtain ⟨hd, hr⟩ := token_split isDigitChar _ _ _ _
        (natDigits_all_digits (m + 1)) (natDigits_all_digits (n + 1))
        (delimHead_not_digit h1) (delimHead_not_digit h2) heq
      have h3 := natDigits_inj hd
      exact ⟨congrArg Int.negSucc (by omega), hr⟩

theorem hexVal_hexDigitChar : ∀ d, d < 16 → hexVal (hexDigitChar d) = d := by decide

theorem escDecode_escChar (c : Char) (a : List Char) :
    escDecode (escChar c ++ a) = some (c, a) := by
  unfold escChar
  split_ifs with h1 h2 h3 h4 h5 h6 h7 h8
  · subst h1; rfl
  · subst h2; rfl
  · subst h3; rfl
  · subst h4; rfl
  · subst h5; rfl
  · subst h6; rfl
  · subst h7; rfl
  · show escDecode ('\\' :: 'u' :: '0' :: '0'
        :: hexDigitChar (c.toNat / 16) :: hexDigitChar (c.toNat % 16) :: a) = some (c, a)
    show some (Char.ofNat (16 * hexVal (hexDigitChar (c.toNat / 16))
        + hexVal (hexDigitChar (c.toNat % 16))), a) = some (c, a)
    rw [hexVal_hexDigitChar (c.toNat / 16) (by omega),
      hexVal_hexDigitChar (c.toNat % 16) (by omega),
      Nat.div_add_mod c.toNat 16, Char.ofNat_toNat]
  · show escDecode (c :: a) = some (c, a)
    simp only [escDecode]
    rw [if_neg h2]

theorem escChar_ne_nil (c : Char) : escChar c ≠ [] := by
  unfold escChar
  split_ifs <;> simp

theorem escChar_head_ne_quote (c : Char) :
    ∀ x t, escChar c = x :: t → x ≠ '"' := by
  unfold escChar
  split_ifs with h1 h2 h3 h4 h5 h6 h7 h8 <;> intro x t h <;>
    (injection h with hx ht; subst hx; first | decide | exact h1)

theorem escChar_unamb {c1 c2 : Char} {a b : List Char}
    (heq : escChar c1 ++ a = escChar c2 ++ b) : c1 = c2 ∧ a = b := by
  have h1 := escDecode_escChar c1 a
  have h2 := escDecode_escChar c2 b
  rw [heq] at h1
  rw [h1] at h2
  injection h2 with h3
  injection h3 with h4 h5
  exact ⟨h4, h5⟩

theorem escList_quote_unamb : ∀ s1 s2 a b : List Char,
    escList s1 ++ '"' :: a = escList s2 ++ '"' :: b → s1 = s2 ∧ a = b := by
  intro s1
  induction s1 with
  | nil =>
    intro s2 a b heq
    cases s2 with
    | nil =>
      simp only [escList, List.nil_append, List.cons.injEq] at heq
      exact ⟨rfl, heq.2⟩
    | cons c2 t2 =>
      simp only [escList, List.nil_append, List.append_assoc] at heq
      cases hesc : escChar c2 with
      | nil => exact absurd hesc (escChar_ne_nil c2)
      | cons x xt =>
        rw [hesc] at heq
        simp only [List.cons_append, List.cons.injEq] at heq
        exact absurd heq.1.symm (escChar_head_ne_quote c2 x xt hesc)
  | cons c1 t1 ih =>
    intro s2 a b heq
    cases s2 with
    | nil =>
      simp only [escList, List.nil_append, List.append_assoc] at heq
      cases hesc : escChar c1 with
      | nil => exact absurd hesc (escChar_ne_nil c1)
      | cons x xt =>
        rw [hesc] at heq
        simp only [List.cons_append, List.cons.injEq] at heq
        exact absurd heq.1 (escChar_head_ne_quote c1 x xt hesc)
    | cons c2 t2 =>
      simp only [escList, List.append_assoc] at heq
      obtain ⟨hc, htail⟩ := escChar_unamb heq
      subst hc
      obtain ⟨h1, h2⟩ := ih t2 a b htail
      exact ⟨by rw [h1], h2⟩

/-! ## Serializer injectivity: head characters -/

theorem intRepr_ne_nil (i : Int) : intRepr i ≠ [] := by
  cases i with
  | ofNat n => exact natDigits_ne_nil n
  | negSucc m => simp [intRepr]

theorem ser_ne_nil (v : Json) : ser v ≠ [] := by
  cases v with
  | int n => exact intRepr_ne_nil n
  | bool b => cases b <;> simp [ser]
  | _ => simp [ser]

theorem charClass_of_digit {c : Char} (h : isDigitChar c = true) : charClass c = 2 := by
  have h1 : c ≠ 'n' := by rintro rfl; exact absurd h (by decide)
  have h2 : ¬ (c = 't' ∨ c = 'f') := by
    rintro (rfl | rfl) <;> exact absurd h (by decide)
  unfold charClass
  rw [if_neg h1, if_neg h2, if_pos (Or.inr h)]

theorem headClass_le (v : Json) : headClass v ≤ 5 := by
  cases v <;> simp [headClass]

theorem ser_head_class (v : Json) : ∀ x t, ser v = x :: t → charClass x = headClass v := by
  cases v with
  | null => intro x t h; injection h with h1 _; subst h1; rfl
  | bool b =>
    cases b <;> (intro x t h; injection h with h1 _; subst h1; rfl)
  | int n =>
    cases n with
    | ofNat m =>
      intro x t h
      obtain ⟨c, t2, hct, hdig⟩ := natDigits_head m
      rw [show ser (Json.int (Int.ofNat m)) = natDigits m from rfl, hct] at h
      injection h with h1 _
      subst h1
      exact charClass_of_digit hdig
    | negSucc m =>
      intro x t h
      rw [show ser (Json.int (Int.negSucc m)) = '-' :: natDigits (m + 1) from rfl] at h
      injection h with h1 _
      subst h1
      rfl
  | floatNum => intro x t h; injection h with h1 _; subst h1; rfl
  | str s => intro x t h; injection h with h1 _; subst h1; rfl
  | arr xs => intro x t h; injection h with h1 _; subst h1; rfl
  | obj kvs => intro x t h; injection h with h1 _; subst h1; rfl

theorem serItems_cons_cons (x y : Json) (l : List Json) :
    serItems (x :: y :: l) = ser x ++ ',' :: serItems (y :: l) := by
  simp [serItems]

theorem serMembers_cons_cons (k : String) (v : Json) (m : String × Json)
    (l : List (String × Json)) :
    serMembers ((k, v) :: m :: l) =
      ('"' :: (escList k.data ++ '"' :: ':' :: ser v)) ++ ',' :: serMembers (m :: l) := by
  simp [serMembers]

/-! ## Serializer injectivity: sequences and the main unambiguity theorem -/

theorem ser_head_ne_closer {v : Json} {rest r : List Char} {c : Char}
    (h : ser v ++ rest = c :: r) (hc : charClass c = 6) : False := by
  cases hs : ser v with
  | nil => exact ser_ne_nil v hs
  | cons x t =>
    rw [hs] at h
    injection h with h1 _
    have h2 := ser_head_class v x t hs
    have h3 := headClass_le v
    rw [h1, hc] at h2
    omega

theorem serItems_head_form (y : Json) (t : List Json) (r : List Char) :
    ∃ z, serItems (y :: t) ++ ']' :: r = ser y ++ z ∧ delimHead z := by
  cases t with
  | nil =>
    refine ⟨']' :: r, by simp [serItems], ?_⟩
    exact Or.inr (Or.inr rfl)
  | cons m t2 =>
    refine ⟨',' :: (serItems (m :: t2) ++ ']' :: r), ?_, Or.inl rfl⟩
    rw [serItems_cons_cons]
    simp [List.append_assoc]

theorem serMembers_head_form (k : String) (v : Json) (t : List (String × Json)) (r : List Char) :
    ∃ z, serMembers ((k, v) :: t) ++ '}' :: r
      = '"' :: (escList k.data ++ '"' :: ':' :: (ser v ++ z)) ∧ delimHead z := by
  cases t with
  | nil =>
    refine ⟨'}' :: r, ?_, Or.inr (Or.inl rfl)⟩
    simp [serMembers, List.append_assoc]
  | cons m t2 =>
    refine ⟨',' :: (serMembers (m :: t2) ++ '}' :: r), ?_, Or.inl rfl⟩
    rw [serMembers_cons_cons]
    simp [List.append_assoc]

theorem serItems_unamb : ∀ xs ys : List Json, ∀ r1 r2 : List Char,
    (∀ u ∈ xs, ∀ (v : Json) (s1 s2 : List Char), hasFloat u = false → hasFloat v = false →
      delimHead s1 → delimHead s2 → ser u ++ s1 = ser v ++ s2 → u = v ∧ s1 = s2) →
    hasFloatList xs = false → hasFloatList ys = false →
    serItems xs ++ ']' :: r1 = serItems ys ++ ']' :: r2 → xs = ys ∧ r1 = r2 := by
  intro xs
  induction xs with
  | nil =>
    intro ys r1 r2 _ _ hfy heq
    cases ys with
    | nil =>
      simp only [serItems, List.nil_append, List.cons.injEq] at heq
      exact ⟨rfl, heq.2⟩
    | cons y t2 =>
      obtain ⟨z, hz, _⟩ := serItems_head_form y t2 r2
      rw [hz] at heq
      simp only [serItems, List.nil_append] at heq
      exact (ser_head_ne_closer heq.symm (by decide)).elim
  | cons x t1 ihx =>
    intro ys r1 r2 ihe hfx hfy heq
    simp only [hasFloatList, Bool.or_eq_false_iff] at hfx
    cases ys with
    | nil =>
      obtain ⟨z, hz, _⟩ := serItems_head_form x t1 r1
      rw [hz] at heq
      simp only [serItems, List.nil_append] at heq
      exact (ser_head_ne_closer heq (by decide)).elim
    | cons y t2 =>
      simp only [hasFloatList, Bool.or_eq_false_iff] at hfy
      obtain ⟨z1, hz1, hdz1⟩ := serItems_head_form x t1 r1
      obtain ⟨z2, hz2, hdz2⟩ := serItems_head_form y t2 r2
      rw [hz1, hz2] at heq
      obtain ⟨hxy, hz⟩ := ihe x (List.mem_cons_self _ _) y z1 z2 hfx.1 hfy.1 hdz1 hdz2 heq
      subst hxy
      cases t1 with
      | nil =>
        cases t2 with
        | nil =>
          have e1 : z1 = ']' :: r1 := List.append_cancel_left
            (by rw [← hz1]; simp [serItems])
          have e2 : z2 = ']' :: r2 := List.append_cancel_left
            (by rw [← hz2]; simp [serItems])
          rw [e1, e2] at hz
          injection hz with _ h2
          exact ⟨rfl, h2⟩
        | cons m2 s2 =>
          have e1 : z1 = ']' :: r1 := List.append_cancel_left
            (by rw [← hz1]; simp [serItems])
          have e2 : z2 = ',' :: (serItems (m2 :: s2) ++ ']' :: r2) := List.append_cancel_left
            (by rw [← hz2]; rw [serItems_cons_cons]; simp [List.append_assoc])
          rw [e1, e2] at hz
          injection hz with h1 _
          exact absurd h1 (by decide)
      | cons m1 s1 =>
        cases t2 with
        | nil =>
          have e1 : z1 = ',' :: (serItems (m1 :: s1) ++ ']' :: r1) := List.append_cancel_left
            (by rw [← hz1]; rw [serItems_cons_cons]; simp [List.append_assoc])
          have e2 : z2 = ']' :: r2 := List.append_cancel_left
            (by rw [← hz2]; simp [serItems])
          rw [e1, e2] at hz
          injection hz with h1 _
          exact absurd h1 (by decide)
        | cons m2 s2 =>
          have e1 : z1 = ',' :: (serItems (m1 :: s1) ++ ']' :: r1) := List.append_cancel_left
            (by rw [← hz1]; rw [serItems_cons_cons]; simp [List.append_assoc])
          have e2 : z2 = ',' :: (serItems (m2 :: s2) ++ ']' :: r2) := List.append_cancel_left
            (by rw [← hz2]; rw [serItems_cons_cons]; simp [List.append_assoc])
          rw [e1, e2] at hz
          injection hz with _ h2
          obtain ⟨h3, h4⟩ := ihx (m2 :: s2) r1 r2
            (fun u hu => ihe u (List.mem_cons_of_mem _ hu)) hfx.2 hfy.2 h2
          exact ⟨by rw [h3], h4⟩

theorem serMembers_unamb : ∀ xs ys : List (String × Json), ∀ r1 r2 : List Char,
    (∀ p ∈ xs, ∀ (v : Json) (s1 s2 : List Char), hasFloat p.2 = false → hasFloat v = false →
      delimHead s1 → delimHead s2 → ser p.2 ++ s1 = ser v ++ s2 → p.2 = v ∧ s1 = s2) →
    hasFloatPairs xs = false → hasFloatPairs ys = false →
    serMembers xs ++ '}' :: r1 = serMembers ys ++ '}' :: r2 → xs = ys ∧ r1 = r2 := by
  intro xs
  induction xs with
  | nil =>
    intro ys r1 r2 _ _ hfy heq
    cases ys with
    | nil =>
      simp only [serMembers, List.nil_append, List.cons.injEq] at heq
      exact ⟨rfl, heq.2⟩
    | cons y t2 =>
      obtain ⟨k2, v2⟩ := y
      obtain ⟨z, hz, _⟩ := serMembers_head_form k2 v2 t2 r2
      rw [hz] at heq
      simp only [serMembers, List.nil_append, List.cons.injEq] at heq
      exact absurd heq.1 (by decide)
  | cons p t1 ihx =>
    intro ys r1 r2 ihe hfx hfy heq
    obtain ⟨k1, v1⟩ := p
    simp only [hasFloatPairs, Bool.or_eq_false_iff] at hfx
    cases ys with
    | nil =>
      obtain ⟨z, hz, _⟩ := serMembers_head_form k1 v1 t1 r1
      rw [hz] at heq
      simp only [serMembers, List.nil_append, List.cons.injEq] at heq
      exact absurd heq.1 (by decide)
    | cons q t2 =>
      obtain ⟨k2, v2⟩ := q
      simp only [hasFloatPairs, Bool.or_eq_false_iff] at hfy
      obtain ⟨z1, hz1, hdz1⟩ := serMembers_head_form k1 v1 t1 r1
      obtain ⟨z2, hz2, hdz2⟩ := serMembers_head_form k2 v2 t2 r2
      rw [hz1, hz2] at heq
      injection heq with _ heq2
      obtain ⟨hkeq, hrest⟩ := escList_quote_unamb k1.data k2.data
        (':' :: (ser v1 ++ z1)) (':' :: (ser v2 ++ z2)) heq2
      have hk : k1 = k2 := String.toList_inj.mp hkeq
      subst hk
      injection hrest with _ hrest2
      obtain ⟨hveq, hz⟩ := ihe (k1, v1) (List.mem_cons_self _ _) v2 z1 z2
        hfx.1 hfy.1 hdz1 hdz2 hrest2
      simp only at hveq
      subst hveq
      cases t1 with
      | nil =>
        cases t2 with
        | nil =>
          have e1 : z1 = '}' :: r1 := by
            have := hz1
            rw [show serMembers [(k1, v1)]
                = '"' :: (escList k1.data ++ '"' :: ':' :: ser v1) from rfl] at this
            simp only [List.cons_append, List.append_assoc, List.cons.injEq, true_and] at this
            have h5 := List.append_cancel_left this
            injection h5 with _ h6
            injection h6 with _ h7
            exact (List.append_cancel_left h7).symm
          have e2 : z2 = '}' :: r2 := by
            have := hz2
            rw [show serMembers [(k1, v1)]
                = '"' :: (escList k1.data ++ '"' :: ':' :: ser v1) from rfl] at this
            simp only [List.cons_append, List.append_assoc, List.cons.injEq, true_and] at this
            have h5 := List.append_cancel_left this
            injection h5 with _ h6
            injection h6 with _ h7
            exact (List.append_cancel_left h7).symm
          rw [e1, e2] at hz
          injection hz with _ h2
          exact ⟨rfl, h2⟩
        | cons m2 s2 =>
          have e1 : z1 = '}' :: r1 := by
            have := hz1
            rw [show serMembers [(k1, v1)]
                = '"' :: (escList k1.data ++ '"' :: ':' :: ser v1) from rfl] at this
            simp only [List.cons_append, List.append_assoc, List.cons.injEq, true_and] at this
            have h5 := List.append_cancel_left this
            injection h5 with _ h6
            injection h6 with _ h7
            exact (List.append_cancel_left h7).symm
          have e2 : z2 = ',' :: (serMembers (m2 :: s2) ++ '}' :: r2) := by
            have := hz2
            rw [serMembers_cons_cons] at this
            simp only [List.cons_append, List.append_assoc, List.cons.injEq, true_and] at this
            have h5 := List.append_cancel_left this
            injection h5 with _ h6
            injection h6 with _ h7
            exact (List.append_cancel_left h7).symm
          rw [e1, e2] at hz
          injection hz with h1 _
          exact absurd h1 (by decide)
      | cons m1 s1 =>
        cases t2 with
        | nil =>
          have e1 : z1 = ',' :: (serMembers (m1 :: s1) ++ '}' :: r1) := by
            have := hz1
            rw [serMembers_cons_cons] at this
            simp only [List.cons_append, List.append_assoc, List.cons.injEq, true_and] at this
            have h5 := List.append_cancel_left this
            injection h5 with _ h6
            injection h6 with _ h7
            exact (List.append_cancel_left h7).symm
          have e2 : z2 = '}' :: r2 := by
            have := hz2
            rw [show serMembers [(k1, v1)]
                = '"' :: (escList k1.data ++ '"' :: ':' :: ser v1) from rfl] at this
            simp only [List.cons_append, List.append_assoc, List.cons.injEq, true_and] at this
            have h5 := List.append_cancel_left this
            injection h5 with _ h6
            injection h6 with _ h7
            exact (List.append_cancel_left h7).symm
          rw [e1, e2] at hz
          injection hz with h1 _
          exact absurd h1 (by decide)
        | cons m2 s2 =>
          have e1 : z1 = ',' :: (serMembers (m1 :: s1) ++ '}' :: r1) := by
            have := hz1
            rw [serMembers_cons_cons] at this
            simp only [List.cons_append, List.append_assoc, List.cons.injEq, true_and] at this
            have h5 := List.append_cancel_left this
            injection h5 with _ h6
            injection h6 with _ h7
            exact (List.append_cancel_left h7).symm
          have e2 : z2 = ',' :: (serMembers (m2 :: s2) ++ '}' :: r2) := by
            have := hz2
            rw [serMembers_cons_cons] at this
            simp only [List.cons_append, List.append_assoc, List.cons.injEq, true_and] at this
            have h5 := List.append_cancel_left this
            injection h5 with _ h6
            injection h6 with _ h7
            exact (List.append_cancel_left h7).symm
          rw [e1, e2] at hz
          injection hz with _ h2
          obtain ⟨h3, h4⟩ := ihx (m2 :: s2) r1 r2
            (fun u hu => ihe u (List.mem_cons_of_mem _ hu)) hfx.2 hfy.2 h2
          exact ⟨by rw [h3], h4⟩

theorem ser_unamb : ∀ u : Json, ∀ (v : Json) (r1 r2 : List Char),
    hasFloat u = false → hasFloat v = false → delimHead r1 → delimHead r2 →
    ser u ++ r1 = ser v ++ r2 → u = v ∧ r1 = r2 := by
  intro u
  generalize hn : sizeOf u = n
  induction n using Nat.strong_induction_on generalizing u with
  | _ n ih =>
  subst hn
  intro v r1 r2 hf1 hf2 hd1 hd2 heq
  have hclass : headClass u = headClass v := by
    cases hs1 : ser u with
    | nil => exact absurd hs1 (ser_ne_nil u)
    | cons x t1 =>
      cases hs2 : ser v with
      | nil => exact absurd hs2 (ser_ne_nil v)
      | cons y t2 =>
        rw [hs1, hs2] at heq
        injection heq with hxy _
        rw [← ser_head_class u x t1 hs1, ← ser_head_class v y t2 hs2, hxy]
  cases u <;> cases v
  all_goals simp only [headClass] at hclass
  all_goals try omega
  all_goals simp only [hasFloat] at hf1 hf2
  all_goals try exact Bool.noConfusion hf1
  all_goals try exact Bool.noConfusion hf2
  · -- null / null
    simp only [ser, List.cons_append, List.nil_append, List.cons.injEq, true_and] at heq
    exact ⟨rfl, heq⟩
  · -- bool / bool
    rename_i b1 b2
    cases b1 <;> cases b2 <;>
      simp only [ser, List.cons_append, List.nil_append, List.cons.injEq, true_and] at heq
    · exact ⟨rfl, heq⟩
    · exact absurd heq.1 (by decide)
    · exact absurd heq.1 (by decide)
    · exact ⟨rfl, heq⟩
  · -- int / int
    rename_i n1 n2
    obtain ⟨h1, h2⟩ := intRepr_unamb n1 n2 r1 r2 hd1 hd2 heq
    exact ⟨by rw [h1], h2⟩
  · -- str / str
    rename_i s1 s2
    simp only [ser, List.cons_append, List.append_assoc, List.singleton_append,
      List.cons.injEq, true_and] at heq
    obtain ⟨h1, h2⟩ := escList_quote_unamb s1.data s2.data r1 r2 heq
    exact ⟨by rw [String.toList_inj.mp h1], h2⟩
  · -- arr / arr
    rename_i xs ys
    simp only [ser, List.cons_append, List.append_assoc, List.singleton_append,
      List.cons.injEq, true_and] at heq
    obtain ⟨h1, h2⟩ := serItems_unamb xs ys r1 r2
      (fun e he w s1 s2 hfe hfw hds1 hds2 heq2 =>
        ih (sizeOf e) (sizeOf_mem_list he) e rfl w s1 s2 hfe hfw hds1 hds2 heq2)
      hf1 hf2 heq
    exact ⟨by rw [h1], h2⟩
  · -- obj / obj
    rename_i xs ys
    simp only [ser, List.cons_append, List.append_assoc, List.singleton_append,
      List.cons.injEq, true_and] at heq
    obtain ⟨h1, h2⟩ := serMembers_unamb xs ys r1 r2
      (fun p hp w s1 s2 hfp hfw hds1 hds2 heq2 =>
        ih (sizeOf p.2) (by obtain ⟨pk, pv⟩ := p; exact sizeOf_mem_pairs hp) p.2 rfl
          w s1 s2 hfp hfw hds1 hds2 heq2)
      hf1 hf2 heq
    exact ⟨by rw [h1], h2⟩

theorem ser_inj {u v : Json} (hf1 : hasFloat u = false) (hf2 : hasFloat v = false)
    (heq : ser u = ser v) : u = v := by
  have h := ser_unamb u v [] [] hf1 hf2 trivial trivial (by simp [heq])
  exact h.1

/-! ## Structural equality matches normal-form equality -/

theorem structEqList_iff : ∀ xs ys : List Json,
    structEqList xs ys = true ↔ List.Forall₂ (fun a b => structEq a b = true) xs ys := by
  intro xs
  induction xs with
  | nil =>
    intro ys
    cases ys <;> simp [structEqList]
  | cons x t ih =>
    intro ys
    cases ys with
    | nil => simp [structEqList]
    | cons y t2 =>
      simp [structEqList, ih, List.forall₂_cons, Bool.and_eq_true]

theorem structEqPairs_iff : ∀ xs ys : List (String × Json),
    structEqPairs xs ys = true ↔
      ∀ p ∈ xs, ∃ w, jlookup p.1 ys = some w ∧ structEq p.2 w = true := by
  intro xs ys
  induction xs with
  | nil => simp [structEqPairs]
  | cons p t ih =>
    obtain ⟨k, v⟩ := p
    rw [structEqPairs, Bool.and_eq_true, ih]
    constructor
    · rintro ⟨h1, h2⟩ q hq
      rcases List.mem_cons.mp hq with heq | hq2
      · subst heq
        cases hj : jlookup k ys with
        | none => rw [hj] at h1; exact absurd h1 (by simp)
        | some w => rw [hj] at h1; exact ⟨w, rfl, h1⟩
      · exact h2 q hq2
    · intro h
      constructor
      · obtain ⟨w, hw, hs⟩ := h (k, v) (List.mem_cons_self _ _)
        rw [hw]
        exact hs
      · exact fun q hq => h q (List.mem_cons_of_mem _ hq)

theorem wellFormedList_mem : ∀ xs : List Json, wellFormedList xs = true →
    ∀ x ∈ xs, wellFormed x = true := by
  intro xs
  induction xs with
  | nil => simp
  | cons y t ih =>
    intro h x hx
    rw [wellFormedList, Bool.and_eq_true] at h
    rcases List.mem_cons.mp hx with heq | hx2
    · subst heq; exact h.1
    · exact ih h.2 x hx2

theorem wellFormedPairs_mem : ∀ kvs : List (String × Json), wellFormedPairs kvs = true →
    ∀ p ∈ kvs, wellFormed p.2 = true := by
  intro kvs
  induction kvs with
  | nil => simp
  | cons q t ih =>
    obtain ⟨k, v⟩ := q
    intro h p hp
    rw [wellFormedPairs, Bool.and_eq_true] at h
    rcases List.mem_cons.mp hp with heq | hp2
    · subst heq; exact h.1
    · exact ih h.2 p hp2

theorem structEqList_iff_map (xs : List Json)
    (ihe : ∀ x ∈ xs, ∀ y : Json, wellFormed x = true → wellFormed y = true →
      (structEq x y = true ↔ nfv x = nfv y)) :
    ∀ ys, wellFormedList xs = true → wellFormedList ys = true →
      (structEqList xs ys = true ↔ nfvList xs = nfvList ys) := by
  induction xs with
  | nil =>
    intro ys _ _
    cases ys <;> simp [structEqList, nfvList]
  | cons x t ih =>
    intro ys hw1 hw2
    rw [wellFormedList, Bool.and_eq_true] at hw1
    cases ys with
    | nil => simp [structEqList, nfvList]
    | cons y t2 =>
      rw [wellFormedList, Bool.and_eq_true] at hw2
      rw [show structEqList (x :: t) (y :: t2) = (structEq x y && structEqList t t2) from rfl,
        Bool.and_eq_true,
        show nfvList (x :: t) = nfv x :: nfvList t from rfl,
        show nfvList (y :: t2) = nfv y :: nfvList t2 from rfl]
      rw [ihe x (List.mem_cons_self _ _) y hw1.1 hw2.1,
        ih (fun e he => ihe e (List.mem_cons_of_mem _ he)) t2 hw1.2 hw2.2]
      simp [List.cons.injEq]

theorem structEqPairs_iff_sort (xs : List (String × Json))
    (ihe : ∀ p ∈ xs, ∀ y : Json, wellFormed p.2 = true → wellFormed y = true →
      (structEq p.2 y = true ↔ nfv p.2 = nfv y)) :
    ∀ ys, keysNodup xs = true → wellFormedPairs xs = true →
      keysNodup ys = true → wellFormedPairs ys = true →
      ((xs.length == ys.length && structEqPairs xs ys) = true
        ↔ sortPairs (nfvPairs xs) = sortPairs (nfvPairs ys)) := by
  intro ys hn1 hw1 hn2 hw2
  rw [keysNodup_iff] at hn1 hn2
  have hnd1 : ((nfvPairs xs).map Prod.fst).Nodup := by rw [map_fst_nfvPairs]; exact hn1
  have hnd2 : ((nfvPairs ys).map Prod.fst).Nodup := by rw [map_fst_nfvPairs]; exact hn2
  have hpermA : (sortPairs (nfvPairs xs)).Perm (nfvPairs xs) := sortPairs_perm _ hnd1
  have hpermB : (sortPairs (nfvPairs ys)).Perm (nfvPairs ys) := sortPairs_perm _ hnd2
  have hlookA : ∀ k, jlookup k (sortPairs (nfvPairs xs)) = (jlookup k xs).map nfv := by
    intro k
    rw [← jlookup_nfvPairs]
    exact jlookup_perm k hpermA ((hpermA.map Prod.fst).nodup_iff.mpr hnd1)
  have hlookB : ∀ k, jlookup k (sortPairs (nfvPairs ys)) = (jlookup k ys).map nfv := by
    intro k
    rw [← jlookup_nfvPairs]
    exact jlookup_perm k hpermB ((hpermB.map Prod.fst).nodup_iff.mpr hnd2)
  have hlenA : (sortPairs (nfvPairs xs)).length = xs.length := by
    rw [hpermA.length_eq, nfvPairs_eq_map, List.length_map]
  have hlenB : (sortPairs (nfvPairs ys)).length = ys.length := by
    rw [hpermB.length_eq, nfvPairs_eq_map, List.length_map]
  rw [Bool.and_eq_true, beq_iff_eq, structEqPairs_iff]
  constructor
  · rintro ⟨hlen, hpt⟩
    refine eq_of_sorted_of_lookup_eq _ _ (sortPairs_sorted _) (sortPairs_sorted _) ?_
    intro k
    rw [hlookA, hlookB]
    cases hv : jlookup k xs with
    | some v =>
      obtain ⟨w, hw, hs⟩ := hpt (k, v) (jlookup_eq_some_mem xs hv)
      try simp only at hw hs
      rw [hw]
      have hwfv : wellFormed v = true := wellFormedPairs_mem xs hw1 (k, v) (jlookup_eq_some_mem xs hv)
      have hwfw : wellFormed w = true := wellFormedPairs_mem ys hw2 (k, w) (jlookup_eq_some_mem ys hw)
      have hnf := (ihe (k, v) (jlookup_eq_some_mem xs hv) w hwfv hwfw).mp hs
      try simp only at hnf
      simp only [Option.map_some', hnf]
    | none =>
      have hsub : (xs.map Prod.fst) ⊆ (ys.map Prod.fst) := by
        intro k2 hk2
        rcases List.mem_map.mp hk2 with ⟨q, hq, hfst⟩
        obtain ⟨w, hw, _⟩ := hpt q hq
        subst hfst
        exact List.mem_map.mpr ⟨(q.1, w), jlookup_eq_some_mem ys hw, rfl⟩
      have hperm : (xs.map Prod.fst).Perm (ys.map Prod.fst) :=
        (List.subperm_of_subset hn1 hsub).perm_of_length_le
          (by simp only [List.length_map]; omega)
      have hk1 : k ∉ xs.map Prod.fst := (jlookup_eq_none_iff k xs).mp hv
      have hk2 : k ∉ ys.map Prod.fst := fun hc => hk1 (hperm.mem_iff.mpr hc)
      rw [(jlookup_eq_none_iff k ys).mpr hk2]
  · intro hAB
    have hlen : xs.length = ys.length := by rw [← hlenA, ← hlenB, hAB]
    refine ⟨hlen, ?_⟩
    intro p hp
    obtain ⟨k, v⟩ := p
    have hv : jlookup k xs = some v := jlookup_some_of_mem_nodup xs hp hn1
    have h1 := hlookA k
    rw [hAB, hlookB, hv] at h1
    cases hw : jlookup k ys with
    | none => rw [hw] at h1; exact absurd h1 (by simp)
    | some w =>
      rw [hw] at h1
      simp only [Option.map_some', Option.some.injEq] at h1
      have hwfv : wellFormed v = true := wellFormedPairs_mem xs hw1 (k, v) hp
      have hwfw : wellFormed w = true :=
        wellFormedPairs_mem ys hw2 (k, w) (jlookup_eq_some_mem ys hw)
      exact ⟨w, rfl, (ihe (k, v) hp w hwfv hwfw).mpr h1.symm⟩

theorem structEq_iff_nfv : ∀ u : Json, ∀ v : Json,
    wellFormed u = true → wellFormed v = true →
    (structEq u v = true ↔ nfv u = nfv v) := by
  intro u
  generalize hn : sizeOf u = n
  induction n using Nat.strong_induction_on generalizing u with
  | _ n ih =>
  subst hn
  intro v hw1 hw2
  cases u <;> cases v
  all_goals try (solve | simp [structEq, nfv, beq_iff_eq])
  · -- arr / arr
    rename_i xs ys
    simp only [wellFormed] at hw1 hw2
    rw [show structEq (Json.arr xs) (Json.arr ys) = structEqList xs ys from rfl,
      show nfv (Json.arr xs) = Json.arr (nfvList xs) from rfl,
      show nfv (Json.arr ys) = Json.arr (nfvList ys) from rfl]
    rw [structEqList_iff_map xs
      (fun x hx y hwx hwy => ih (sizeOf x) (sizeOf_mem_list hx) x rfl y hwx hwy)
      ys hw1 hw2]
    simp
  · -- obj / obj
    rename_i xs ys
    simp only [wellFormed, Bool.and_eq_true] at hw1 hw2
    rw [show structEq (Json.obj xs) (Json.obj ys)
        = (xs.length == ys.length && structEqPairs xs ys) from rfl,
      show nfv (Json.obj xs) = Json.obj (sortPairs (nfvPairs xs)) from rfl,
      show nfv (Json.obj ys) = Json.obj (sortPairs (nfvPairs ys)) from rfl]
    rw [structEqPairs_iff_sort xs
      (fun p hp y hwp hwy => ih (sizeOf p.2)
        (by obtain ⟨pk, pv⟩ := p; exact sizeOf_mem_pairs hp) p.2 rfl y hwp hwy)
      ys hw1.1 hw1.2 hw2.1 hw2.2]
    simp

/-! ## Claim C3: canonicalization determinism -/

/-- C3.  Canonicalization determinism: for JSON values built from strings,
integers, booleans, nulls, arrays and objects (no non-integer numbers, and
object member lists duplicate-free as `serde_json::Map` guarantees),
`to_canonical_bytes` succeeds on both `x` and `y` with the same bytes exactly
when `x` and `y` are structurally equal as JSON trees, irrespective of object
key insertion order; and `to_canonical_bytes` returns a
`DeterminismViolationError` exactly when the value contains a non-integer
number. -/
theorem C3_canonicalization_determinism (x y : Json) :
    (wellFormed x = true → wellFormed y = true → hasFloat x = false → hasFloat y = false →
      ((∃ bs, to_canonical_bytes x = .ok bs ∧ to_canonical_bytes y = .ok bs)
        ↔ structEq x y = true))
    ∧ ((∃ e, to_canonical_bytes x = .error e) ↔ hasFloat x = true) := by
  constructor
  · intro hw1 hw2 hf1 hf2
    rw [to_canonical_bytes_eq, to_canonical_bytes_eq, hf1, hf2]
    simp only [Bool.false_eq_true, if_false]
    rw [structEq_iff_nfv x y hw1 hw2]
    constructor
    · rintro ⟨bs, h1, h2⟩
      injection h1 with h1
      injection h2 with h2
      exact ser_inj (hasFloat_nfv x hf1) (hasFloat_nfv y hf2) (h1.trans h2.symm)
    · intro h
      exact ⟨ser (nfv x), rfl, by rw [h]⟩
  · rw [to_canonical_bytes_eq]
    cases h : hasFloat x <;> simp

/-- Witness for C3 at concrete inputs: two objects with the same members in
different insertion order canonicalize to identical bytes. -/
theorem C3_canonicalization_determinism_witness :
    ∃ bs, to_canonical_bytes (Json.obj [("b", Json.null), ("a", Json.str "hi")]) = .ok bs
      ∧ to_canonical_bytes (Json.obj [("a", Json.str "hi"), ("b", Json.null)]) = .ok bs :=
  ((C3_canonicalization_determinism
      (Json.obj [("b", Json.null), ("a", Json.str "hi")])
      (Json.obj [("a", Json.str "hi"), ("b", Json.null)])).1
    (by decide) (by decide) (by decide) (by decide)).mpr (by decide)

/-! ## Audit log: the append chain invariant -/

theorem finalize_event_ok (sha : List Char → String) (e fe : AuditEvent)
    (h : finalize_event sha e = .ok fe) :
    ∃ bs, to_canonical_bytes (eventToJson { e with event_hash := ZERO_HASH_64 }) = .ok bs
      ∧ fe = { e with event_hash := sha bs } := by
  unfold finalize_event at h
  split at h
  · exact absurd h (by simp)
  · cases hv : validate_event_taxonomy e with
    | error err => rw [hv] at h; exact absurd h (by simp)
    | ok u =>
      rw [hv] at h
      unfold compute_event_hash at h
      cases htcb : to_canonical_bytes (eventToJson { e with event_hash := ZERO_HASH_64 }) with
      | error err => rw [htcb] at h; exact absurd h (by simp)
      | ok bs =>
        rw [htcb] at h
        injection h with h2
        exact ⟨bs, rfl, h2.symm⟩

theorem append_ok (sha : List Char → String) (log : AuditLog)
    (event fe : AuditEvent) (log2 : AuditLog)
    (h : log.append sha event = .ok (fe, log2)) :
    fe.prev_event_hash = log.last_hash ∧ log2.last_hash = fe.event_hash
      ∧ log2.lines = log.lines ++ [fe]
      ∧ ∃ bs, to_canonical_bytes (eventToJson { fe with event_hash := ZERO_HASH_64 }) = .ok bs
          ∧ fe.event_hash = sha bs := by
  unfold AuditLog.append at h
  dsimp only [] at h
  cases hf : finalize_event sha { event with prev_event_hash := log.last_hash } with
  | error err => rw [hf] at h; exact absurd h (by simp)
  | ok fe2 =>
    rw [hf] at h
    injection h with h2
    injection h2 with hfe hlog
    subst hfe
    obtain ⟨bs, hbs, hfe2⟩ := finalize_event_ok sha _ fe2 hf
    subst hfe2
    subst hlog
    refine ⟨rfl, rfl, rfl, bs, ?_, rfl⟩
    exact hbs

theorem lastHashOf_cons (d : String) (f : AuditEvent) (t : List AuditEvent) :
    lastHashOf d (f :: t) = lastHashOf f.event_hash t := by
  cases t with
  | nil => rfl
  | cons g t2 =>
    simp [lastHashOf, List.getLast?]

theorem lastHashOf_concat (d : String) (l : List AuditEvent) (e : AuditEvent) :
    lastHashOf d (l ++ [e]) = e.event_hash := by
  simp [lastHashOf, List.getLast?_concat]

theorem chainLinked_append (sha : List Char → String) :
    ∀ l : List AuditEvent, ∀ (p : String) (e : AuditEvent),
    chainLinked sha p l → e.prev_event_hash = lastHashOf p l →
    (∃ bs, to_canonical_bytes (eventToJson { e with event_hash := ZERO_HASH_64 }) = .ok bs
      ∧ e.event_hash = sha bs) →
    chainLinked sha p (l ++ [e]) := by
  intro l
  induction l with
  | nil =>
    intro p e _ hprev hbs
    exact ⟨hprev, hbs, trivial⟩
  | cons f t ih =>
    rintro p e ⟨hf1, hf2, hrest⟩ hprev hbs
    rw [lastHashOf_cons] at hprev
    exact ⟨hf1, hf2, ih f.event_hash e hrest hprev hbs⟩

theorem appendAll_invariant (sha : List Char → String) :
    ∀ (evs : List AuditEvent) (log log2 : AuditLog),
    appendAll sha log evs = .ok log2 →
    chainLinked sha ZERO_HASH_64 log.lines →
    log.last_hash = lastHashOf ZERO_HASH_64 log.lines →
    chainLinked sha ZERO_HASH_64 log2.lines
      ∧ log2.last_hash = lastHashOf ZERO_HASH_64 log2.lines := by
  intro evs
  induction evs with
  | nil =>
    intro log log2 h hc hl
    unfold appendAll at h
    injection h with h2
    subst h2
    exact ⟨hc, hl⟩
  | cons e es ih =>
    intro log log2 h hc hl
    unfold appendAll at h
    cases ha : log.append sha e with
    | error err => rw [ha] at h; exact absurd h (by simp)
    | ok pr =>
      obtain ⟨fe, log1⟩ := pr
      rw [ha] at h
      obtain ⟨hprev, hlast, hlines, hbs⟩ := append_ok sha log e fe log1 ha
      refine ih log1 log2 h ?_ ?_
      · rw [hlines]
        exact chainLinked_append sha log.lines ZERO_HASH_64 fe hc (by rw [hprev, hl]) hbs
      · rw [hlines, lastHashOf_concat, hlast]

/-! ## Audit log: the validator's chain recomputation accepts every log the
core writes -/

theorem eventToJson_requiredKeys (e : AuditEvent) :
    requiredAuditKeys.all (fun k => (jsonGet (eventToJson e) k).isSome) = true := by
  simp +decide [requiredAuditKeys, eventToJson, jsonGet, jlookup]

theorem eventToJson_get_prev (e : AuditEvent) :
    asStrOrEmpty (jsonGet (eventToJson e) "prev_event_hash") = e.prev_event_hash := by
  simp +decide [eventToJson, jsonGet, jlookup, asStrOrEmpty]

theorem eventToJson_get_hash (e : AuditEvent) :
    asStrOrEmpty (jsonGet (eventToJson e) "event_hash") = e.event_hash := by
  simp +decide [eventToJson, jsonGet, jlookup, asStrOrEmpty]

theorem eventToJson_setKey_hash (e : AuditEvent) :
    setKey "event_hash" (Json.str ZERO_HASH_64) (eventToJson e)
      = eventToJson { e with event_hash := ZERO_HASH_64 } := by
  simp +decide [setKey, replaceKey, eventToJson]

theorem checkChainFrom_of_chainLinked (sha : List Char → String) :
    ∀ (l : List AuditEvent) (prev : String),
    chainLinked sha prev l → checkChainFrom sha prev (l.map eventToJson) = true := by
  intro l
  induction l with
  | nil =>
    intro prev _
    rfl
  | cons e t ih =>
    rintro prev ⟨hprev, ⟨bs, hbs, hhash⟩, hrest⟩
    rw [List.map_cons, checkChainFrom]
    rw [if_neg (by rw [eventToJson_requiredKeys]; simp)]
    rw [if_neg (by rw [eventToJson_get_prev, hprev]; simp)]
    rw [eventToJson_setKey_hash, hbs]
    dsimp only []
    rw [eventToJson_get_hash, hhash]
    rw [if_neg (by simp)]
    rw [hhash] at hrest
    exact ih (sha bs) hrest

/-! ## Claims C1 and C9: the audit hash chain -/

/-- C1.  Audit hash chain: starting from a fresh log
(`AuditLog::open_or_create` on a fresh path), any sequence of successful
`append` calls yields a log in which every stored event's `event_hash` is
SHA-256 of the canonical bytes of the event with its `event_hash` field
forced to the all-zero 64-hex string, the first event's `prev_event_hash` is
the 64-zero constant, every later `prev_event_hash` equals the previous
event's `event_hash` (the content of `chainLinked`), and the validator's
chain recomputation `check_audit_chain` passes on the log's lines.  The
SHA-256 function is a parameter, so this holds for the real hash. -/
theorem C1_audit_hash_chain (sha : List Char → String) (evs : List AuditEvent)
    (log : AuditLog) (h : appendAll sha AuditLog.openFresh evs = .ok log) :
    chainLinked sha ZERO_HASH_64 log.lines
      ∧ check_audit_chain sha (log.lines.map eventToJson) = true := by
  obtain ⟨hc, _⟩ := appendAll_invariant sha evs AuditLog.openFresh log h trivial rfl
  exact ⟨hc, checkChainFrom_of_chainLinked sha _ _ hc⟩

/-- Witness for C1: two concrete appends into a fresh log, under the constant
hash function, produce a chain-linked log that the validator accepts. -/
theorem C1_audit_hash_chain_witness :
    ∃ log, appendAll (fun _ => "aaaaaaaaaaaaaaaaaaaaaaaaaaaaaaaaaaaaaaaaaaaaaaaaaaaaaaaaaaaaaaaa") AuditLog.openFresh
        [⟨"2024-01-01T00:00:00Z", "EVAL_STARTED", "r_x", "v_1", Actor.system,
            Json.obj [("registry_version", Json.str "3")], "", ""⟩,
         ⟨"2024-01-01T00:00:01Z", "EVAL_COMPLETED", "r_x", "v_1", Actor.system,
            Json.obj [("gates_executed", Json.str "1"),
              ("gates_failed_blocker", Json.str "0"),
              ("gates_failed_total", Json.str "0")], "junk", "junk"⟩] = .ok log
      ∧ chainLinked (fun _ => "aaaaaaaaaaaaaaaaaaaaaaaaaaaaaaaaaaaaaaaaaaaaaaaaaaaaaaaaaaaaaaaa") ZERO_HASH_64 log.lines
      ∧ check_audit_chain (fun _ => "aaaaaaaaaaaaaaaaaaaaaaaaaaaaaaaaaaaaaaaaaaaaaaaaaaaaaaaaaaaaaaaa") (log.lines.map eventToJson) = true :=
  ⟨⟨[⟨"2024-01-01T00:00:00Z", "EVAL_STARTED", "r_x", "v_1", Actor.system,
        Json.obj [("registry_version", Json.str "3")], ZERO_HASH_64, "aaaaaaaaaaaaaaaaaaaaaaaaaaaaaaaaaaaaaaaaaaaaaaaaaaaaaaaaaaaaaaaa"⟩,
     ⟨"2024-01-01T00:00:01Z", "EVAL_COMPLETED", "r_x", "v_1", Actor.system,
        Json.obj [("gates_executed", Json.str "1"),
          ("gates_failed_blocker", Json.str "0"),
          ("gates_failed_total", Json.str "0")], "aaaaaaaaaaaaaaaaaaaaaaaaaaaaaaaaaaaaaaaaaaaaaaaaaaaaaaaaaaaaaaaa", "aaaaaaaaaaaaaaaaaaaaaaaaaaaaaaaaaaaaaaaaaaaaaaaaaaaaaaaaaaaaaaaa"⟩],
    "aaaaaaaaaaaaaaaaaaaaaaaaaaaaaaaaaaaaaaaaaaaaaaaaaaaaaaaaaaaaaaaa"⟩,
   rfl,
   C1_audit_hash_chain (fun _ => "aaaaaaaaaaaaaaaaaaaaaaaaaaaaaaaaaaaaaaaaaaaaaaaaaaaaaaaaaaaaaaaa")
     [⟨"2024-01-01T00:00:00Z", "EVAL_STARTED", "r_x", "v_1", Actor.system,
         Json.obj [("registry_version", Json.str "3")], "", ""⟩,
      ⟨"2024-01-01T00:00:01Z", "EVAL_COMPLETED", "r_x", "v_1", Actor.system,
         Json.obj [("gates_executed", Json.str "1"),
           ("gates_failed_blocker", Json.str "0"),
           ("gates_failed_total", Json.str "0")], "junk", "junk"⟩]
     ⟨[⟨"2024-01-01T00:00:00Z", "EVAL_STARTED", "r_x", "v_1", Actor.system,
          Json.obj [("registry_version", Json.str "3")], ZERO_HASH_64, "aaaaaaaaaaaaaaaaaaaaaaaaaaaaaaaaaaaaaaaaaaaaaaaaaaaaaaaaaaaaaaaa"⟩,
       ⟨"2024-01-01T00:00:01Z", "EVAL_COMPLETED", "r_x", "v_1", Actor.system,
          Json.obj [("gates_executed", Json.str "1"),
            ("gates_failed_blocker", Json.str "0"),
            ("gates_failed_total", Json.str "0")], "aaaaaaaaaaaaaaaaaaaaaaaaaaaaaaaaaaaaaaaaaaaaaaaaaaaaaaaaaaaaaaaa", "aaaaaaaaaaaaaaaaaaaaaaaaaaaaaaaaaaaaaaaaaaaaaaaaaaaaaaaaaaaaaaaa"⟩],
      "aaaaaaaaaaaaaaaaaaaaaaaaaaaaaaaaaaaaaaaaaaaaaaaaaaaaaaaaaaaaaaaa"⟩
     rfl⟩

/-- C9.  `AuditLog::append` pins the chain link: whatever
`prev_event_hash` the caller supplied, the finalized event that is written
and returned carries the log's `last_hash` as its `prev_event_hash`, and
after a successful append the log's `last_hash` is the new event's
`event_hash` and the event is appended at the end of the log's lines. -/
theorem C9_append_pins_chain (sha : List Char → String) (log : AuditLog)
    (event fe : AuditEvent) (log2 : AuditLog)
    (h : log.append sha event = .ok (fe, log2)) :
    fe.prev_event_hash = log.last_hash ∧ log2.last_hash = fe.event_hash
      ∧ log2.lines = log.lines ++ [fe] := by
  obtain ⟨h1, h2, h3, _⟩ := append_ok sha log event fe log2 h
  exact ⟨h1, h2, h3⟩

/-- Witness for C9: a concrete append whose caller-supplied
`prev_event_hash` is junk still comes back pinned to the log's
`last_hash`. -/
theorem C9_append_pins_chain_witness :
    ∃ fe log2, AuditLog.append (fun _ => "aaaaaaaaaaaaaaaaaaaaaaaaaaaaaaaaaaaaaaaaaaaaaaaaaaaaaaaaaaaaaaaa") AuditLog.openFresh
        ⟨"2024-02-02T00:00:00Z", "ARTIFACT_INGEST_STARTED", "r_y", "v_2", Actor.user,
          Json.obj [("source_type", Json.str "file"), ("source_ref", Json.str "a.txt")],
          "deadbeef", "junkhash"⟩ = .ok (fe, log2)
      ∧ fe.prev_event_hash = AuditLog.openFresh.last_hash
      ∧ log2.last_hash = fe.event_hash
      ∧ log2.lines = AuditLog.openFresh.lines ++ [fe] :=
  ⟨⟨"2024-02-02T00:00:00Z", "ARTIFACT_INGEST_STARTED", "r_y", "v_2", Actor.user,
      Json.obj [("source_type", Json.str "file"), ("source_ref", Json.str "a.txt")],
      ZERO_HASH_64, "aaaaaaaaaaaaaaaaaaaaaaaaaaaaaaaaaaaaaaaaaaaaaaaaaaaaaaaaaaaaaaaa"⟩,
   ⟨[⟨"2024-02-02T00:00:00Z", "ARTIFACT_INGEST_STARTED", "r_y", "v_2", Actor.user,
        Json.obj [("source_type", Json.str "file"), ("source_ref", Json.str "a.txt")],
        ZERO_HASH_64, "aaaaaaaaaaaaaaaaaaaaaaaaaaaaaaaaaaaaaaaaaaaaaaaaaaaaaaaaaaaaaaaa"⟩], "aaaaaaaaaaaaaaaaaaaaaaaaaaaaaaaaaaaaaaaaaaaaaaaaaaaaaaaaaaaaaaaa"⟩,
   rfl,
   C9_append_pins_chain (fun _ => "aaaaaaaaaaaaaaaaaaaaaaaaaaaaaaaaaaaaaaaaaaaaaaaaaaaaaaaaaaaaaaaa") AuditLog.openFresh
     ⟨"2024-02-02T00:00:00Z", "ARTIFACT_INGEST_STARTED", "r_y", "v_2", Actor.user,
       Json.obj [("source_type", Json.str "file"), ("source_ref", Json.str "a.txt")],
       "deadbeef", "junkhash"⟩
     ⟨"2024-02-02T00:00:00Z", "ARTIFACT_INGEST_STARTED", "r_y", "v_2", Actor.user,
       Json.obj [("source_type", Json.str "file"), ("source_ref", Json.str "a.txt")],
       ZERO_HASH_64, "aaaaaaaaaaaaaaaaaaaaaaaaaaaaaaaaaaaaaaaaaaaaaaaaaaaaaaaaaaaaaaaa"⟩
     ⟨[⟨"2024-02-02T00:00:00Z", "ARTIFACT_INGEST_STARTED", "r_y", "v_2", Actor.user,
         Json.obj [("source_type", Json.str "file"), ("source_ref", Json.str "a.txt")],
         ZERO_HASH_64, "aaaaaaaaaaaaaaaaaaaaaaaaaaaaaaaaaaaaaaaaaaaaaaaaaaaaaaaaaaaaaaaa"⟩], "aaaaaaaaaaaaaaaaaaaaaaaaaaaaaaaaaaaaaaaaaaaaaaaaaaaaaaaaaaaaaaaa"⟩
     rfl⟩

/-! ## Claims C2 and C5: the export gate -/

/-- C2.  Export gate decision order: `evaluate_export_gate` agrees everywhere
with the decision procedure transcribed from the specification claim: first
failing rule wins in the order blocker failures (`EVAL_FAILED`), determinism
(`DETERMINISM_FAILED`), pinning (`INSUFFICIENT_PINNING` for `NAME_ONLY` under
STRICT or BALANCED — so DRAFT_ONLY accepts NAME_ONLY), citations
(`MISSING_CITATIONS`, STRICT only), redactions (`MISSING_REDACTIONS`, STRICT
or BALANCED), offline proof (`OFFLINE_PROOF_INSUFFICIENT`, STRICT without
OFFLINE + OFFLINE_STRICT); otherwise the export is allowed. -/
theorem C2_export_gate_decision_order (i : ExportGateInputs) :
    evaluate_export_gate i = exportGateDecisionSpec i := by
  obtain ⟨mode, pin, cit, red, blockers, det, net, lvl⟩ := i
  cases blockers <;> cases mode <;> cases pin <;> cases cit <;> cases red <;>
    cases det <;> cases net <;> cases lvl <;> rfl

theorem evaluate_eq_gateCore (i : ExportGateInputs) :
    evaluate_export_gate i = gateCore i.blocker_gate_failures.isEmpty i.policy_mode
      i.pinning_level i.citations_required_passed i.redactions_required_passed
      i.determinism_passed i.network_mode i.proof_level := by
  obtain ⟨mode, pin, cit, red, blockers, det, net, lvl⟩ := i
  cases blockers <;> rfl

theorem gateCore_monotone : ∀ (bE : Bool) (m1 m2 : PolicyMode) (pin : PinningLevel)
    (cit red det : Bool) (net : NetworkMode) (lvl : ProofLevel),
    policyRank m1 ≤ policyRank m2 →
    (gateCore bE m1 pin cit red det net lvl).isOk = false →
    (gateCore bE m2 pin cit red det net lvl).isOk = false := by decide

/-- C5.  Export gate monotonicity: with every other input fixed, if
`evaluate_export_gate` blocks the export under some policy mode, it also
blocks it under every policy mode of equal or higher strictness, where
strictness increases DRAFT_ONLY → BALANCED → STRICT; strengthening the policy
mode never turns a blocked export into an allowed one. -/
theorem C5_export_gate_monotonicity (i : ExportGateInputs) (m2 : PolicyMode)
    (hrank : policyRank i.policy_mode ≤ policyRank m2)
    (hblocked : (evaluate_export_gate i).isOk = false) :
    (evaluate_export_gate { i with policy_mode := m2 }).isOk = false := by
  rw [evaluate_eq_gateCore] at hblocked ⊢
  exact gateCore_monotone i.blocker_gate_failures.isEmpty i.policy_mode m2
    i.pinning_level i.citations_required_passed i.redactions_required_passed
    i.determinism_passed i.network_mode i.proof_level hrank hblocked

/-- Witness for C5: an export blocked for missing redactions under BALANCED
stays blocked under STRICT. -/
theorem C5_export_gate_monotonicity_witness :
    (evaluate_export_gate ⟨PolicyMode.STRICT, PinningLevel.CRYPTO_PINNED, true, false,
        [], true, NetworkMode.OFFLINE, ProofLevel.OFFLINE_STRICT⟩).isOk = false :=
  C5_export_gate_monotonicity
    ⟨PolicyMode.BALANCED, PinningLevel.CRYPTO_PINNED, true, false,
      [], true, NetworkMode.OFFLINE, ProofLevel.OFFLINE_STRICT⟩
    PolicyMode.STRICT (by decide) (by rfl)

/-! ## Claim C6: egress decisions -/

theorem egressScan_eq (dta : String → Option String) (url : Url) :
    ∀ (l : List AllowlistEntry) (idx : Nat),
    egressScan dta url idx l =
      match List.findIdx? (fun e => matches_url dta e url) l idx with
      | some j => .Allowed (alwRuleId j)
      | none => .Blocked "NOT_ALLOWLISTED" := by
  intro l
  induction l with
  | nil => intro idx; rfl
  | cons e t ih =>
    intro idx
    rw [egressScan, List.findIdx?_cons]
    by_cases h : matches_url dta e url
    · simp [h]
    · simp only [h, Bool.false_eq_true, if_false, if_neg]
      rw [ih (idx + 1)]

/-- C6.  Egress decision: under `OFFLINE` network mode every URL is blocked
with reason exactly `OFFLINE_MODE`; under `ONLINE_ALLOWLISTED` the allowlist
is scanned in order and the decision is `Allowed` with rule id `ALW` plus the
zero-padded four-digit index of the first entry whose `matches_url` test
(scheme, IDNA-lowercased host, port-or-default, path prefix) accepts the URL,
and `Blocked` with reason exactly `NOT_ALLOWLISTED` when no entry matches.
`idna::domain_to_ascii` enters as the parameter `dta`. -/
theorem C6_egress_decide (dta : String → Option String) (policy : EgressPolicy)
    (url : Url) :
    (policy.network_mode = NetworkMode.OFFLINE →
      egressDecide dta policy url = .Blocked "OFFLINE_MODE")
    ∧ (policy.network_mode = NetworkMode.ONLINE_ALLOWLISTED →
      egressDecide dta policy url =
        match List.findIdx? (fun e => matches_url dta e url) policy.allowlist with
        | some j => .Allowed (alwRuleId j)
        | none => .Blocked "NOT_ALLOWLISTED") := by
  constructor
  · intro h
    unfold egressDecide
    rw [h]
  · intro h
    unfold egressDecide
    rw [h]
    exact egressScan_eq dta url policy.allowlist 0

/-- Witness for C6: a concrete URL is blocked with `OFFLINE_MODE` offline,
and the same URL is allowed with rule id `ALW0000` when the first allowlist
entry matches it online. -/
theorem C6_egress_decide_witness :
    egressDecide (fun s => some s)
        ⟨NetworkMode.OFFLINE, ProofLevel.OFFLINE_STRICT, []⟩
        ⟨"https", some "example.com", some 443, "/"⟩ = .Blocked "OFFLINE_MODE"
    ∧ egressDecide (fun s => some s)
        ⟨NetworkMode.ONLINE_ALLOWLISTED, ProofLevel.ONLINE_ALLOWLIST_CORE_ONLY,
          [⟨"https", "example.com", 443, none, "api", "pp1", "1"⟩]⟩
        ⟨"https", some "example.com", some 443, "/"⟩ = .Allowed (alwRuleId 0) := by
  constructor
  · exact (C6_egress_decide (fun s => some s)
      ⟨NetworkMode.OFFLINE, ProofLevel.OFFLINE_STRICT, []⟩
      ⟨"https", some "example.com", some 443, "/"⟩).1 rfl
  · rw [(C6_egress_decide (fun s => some s)
      ⟨NetworkMode.ONLINE_ALLOWLISTED, ProofLevel.ONLINE_ALLOWLIST_CORE_ONLY,
        [⟨"https", "example.com", 443, none, "api", "pp1", "1"⟩]⟩
      ⟨"https", some "example.com", some 443, "/"⟩).2 rfl]
    rfl

/-! ## Claim C7: loopback-only enforcement

The claim as stated says every rejection carries a `PolicyBlocked` error.  In
the source, `is_loopback_endpoint` rejects endpoints that do not parse, lack
a host, or whose host is not a literal IP with `InvalidInput` (propagated
unchanged by `enforce_loopback_endpoint`); only a parseable loopback check
that comes back `false` produces `PolicyBlocked`. -/

/-- Counterexample to C7 as stated: an endpoint the URL parser rejects is
refused with `InvalidInput`, not with a `PolicyBlocked` error.  (`fun _ =>
none` is the URL parser's behaviour on the unparseable string.) -/
theorem C7_loopback_counterexample :
    enforce_loopback_endpoint (fun _ => none) (fun _ => none) "not a url"
      = .error (.InvalidInput "invalid adapter endpoint URL")
    ∧ isPolicyBlockedErr
        (enforce_loopback_endpoint (fun _ => none) (fun _ => none) "not a url")
      = false :=
  ⟨rfl, rfl⟩

/-- C7 (amended).  Loopback-only enforcement: `enforce_loopback_endpoint`
succeeds exactly when the endpoint parses as a URL whose host is a literal IP
address that is loopback (first IPv4 octet 127, i.e. 127.0.0.0/8, or the IPv6
address ::1); endpoints that do not parse, lack a host, or whose host is not
a literal IP are rejected with an `InvalidInput` error, and endpoints whose
IP is not loopback are rejected with a `PolicyBlocked` error.  The `url` and
`IpAddr` parsers enter as parameters. -/
theorem C7_loopback_enforcement (parseUrl : String → Option Url)
    (parseIp : String → Option IpAddr) (endpoint : String) :
    (enforce_loopback_endpoint parseUrl parseIp endpoint = .ok () ↔
      ∃ url host ip, parseUrl endpoint = some url ∧ url.host_str = some host
        ∧ parseIp host = some ip ∧ ip.is_loopback = true)
    ∧ (parseUrl endpoint = none →
        enforce_loopback_endpoint parseUrl parseIp endpoint
          = .error (.InvalidInput "invalid adapter endpoint URL"))
    ∧ (∀ url, parseUrl endpoint = some url → url.host_str = none →
        enforce_loopback_endpoint parseUrl parseIp endpoint
          = .error (.InvalidInput "adapter endpoint missing host"))
    ∧ (∀ url host, parseUrl endpoint = some url → url.host_str = some host →
        parseIp host = none →
        enforce_loopback_endpoint parseUrl parseIp endpoint
          = .error (.InvalidInput "adapter endpoint host must be an IP address"))
    ∧ (∀ url host ip, parseUrl endpoint = some url → url.host_str = some host →
        parseIp host = some ip → ip.is_loopback = false →
        enforce_loopback_endpoint parseUrl parseIp endpoint
          = .error (.PolicyBlocked "adapter endpoint rejected: not loopback (127.0.0.1/::1)"))
    ∧ (∀ ip : IpAddr, ip.is_loopback = true ↔
        ((∃ b c d, ip = .v4 127 b c d) ∨ ip = .v6 1)) := by
  refine ⟨?_, ?_, ?_, ?_, ?_, ?_⟩
  · unfold enforce_loopback_endpoint is_loopback_endpoint
    cases hu : parseUrl endpoint with
    | none => simp [hu]
    | some url =>
      dsimp only []
      cases hh : url.host_str with
      | none => simp [hu, hh]
      | some host =>
        dsimp only []
        cases hi : parseIp host with
        | none => simp [hu, hh, hi]
        | some ip =>
          dsimp only []
          cases hl : ip.is_loopback
          · simp [hu, hh, hi, hl]
          · simp [hu, hh, hi, hl]
  · intro h
    unfold enforce_loopback_endpoint is_loopback_endpoint
    rw [h]
  · intro url h1 h2
    unfold enforce_loopback_endpoint is_loopback_endpoint
    rw [h1]
    dsimp only []
    rw [h2]
  · intro url host h1 h2 h3
    unfold enforce_loopback_endpoint is_loopback_endpoint
    rw [h1]
    dsimp only []
    rw [h2]
    dsimp only []
    rw [h3]
  · intro url host ip h1 h2 h3 h4
    unfold enforce_loopback_endpoint is_loopback_endpoint
    rw [h1]
    dsimp only []
    rw [h2]
    dsimp only []
    rw [h3]
    dsimp only []
    rw [h4]
  · intro ip
    cases ip with
    | v4 a b c d =>
      simp only [IpAddr.is_loopback, beq_iff_eq]
      constructor
      · intro h; exact Or.inl ⟨b, c, d, by rw [h]⟩
      · rintro (⟨b2, c2, d2, heq⟩ | heq) <;> simp_all
    | v6 bits =>
      simp only [IpAddr.is_loopback, beq_iff_eq]
      constructor
      · intro h; exact Or.inr (by rw [h])
      · rintro (⟨b2, c2, d2, heq⟩ | heq) <;> simp_all

/-- Witness for C7 (amended): a loopback endpoint is accepted. -/
theorem C7_loopback_enforcement_witness :
    enforce_loopback_endpoint
      (fun _ => some ⟨"http", some "127.0.0.1", some 8080, "/"⟩)
      (fun _ => some (IpAddr.v4 127 0 0 1)) "http://127.0.0.1:8080" = .ok () :=
  (C7_loopback_enforcement
      (fun _ => some ⟨"http", some "127.0.0.1", some 8080, "/"⟩)
      (fun _ => some (IpAddr.v4 127 0 0 1)) "http://127.0.0.1:8080").1.mpr
    ⟨⟨"http", some "127.0.0.1", some 8080, "/"⟩, "127.0.0.1", IpAddr.v4 127 0 0 1,
      rfl, rfl, rfl, rfl⟩

/-! ## Claim C8: run-id derivation -/

theorem utf8Len_ge_length : ∀ (l : List Char) (a : Nat),
    a + l.length ≤ List.foldl (fun n c => n + c.utf8Size) a l := by
  intro l
  induction l with
  | nil => intro a; simp
  | cons c t ih =>
    intro a
    rw [List.foldl_cons]
    have h1 := ih (a + c.utf8Size)
    have h2 : 1 ≤ c.utf8Size := Char.utf8Size_pos c
    simp only [List.length_cons]
    omega

/-- C8.  Run-id derivation: `run_id_from_manifest_inputs_fingerprint_hex32`
rejects with `InvalidInput` exactly those fingerprints whose trimmed byte
length is below 32 or whose first 32 characters are not all ASCII hex digits;
every accepted fingerprint maps to `r_` followed by exactly its first 32
trimmed characters ASCII-lowercased; and two fingerprints whose trimmed
strings agree on their first 32 characters (in particular, one of length
exactly 32 and a longer one with the same first 32 characters) map to the
same result. -/
theorem C8_run_id_derivation (s1 s2 : String) :
    ((∃ e, run_id_from_manifest_inputs_fingerprint_hex32 s1 = .error e) ↔
      (utf8Len (rustTrim s1.data) < 32
        ∨ ¬ (((rustTrim s1.data).take 32).all is_ascii_hexdigit = true)))
    ∧ (∀ e, run_id_from_manifest_inputs_fingerprint_hex32 s1 = .error e →
        e = .InvalidInput "manifest_inputs_fingerprint must be hex with length >= 32")
    ∧ (¬ (utf8Len (rustTrim s1.data) < 32
          ∨ ¬ (((rustTrim s1.data).take 32).all is_ascii_hexdigit = true)) →
        run_id_from_manifest_inputs_fingerprint_hex32 s1
          = .ok ("r_" ++ String.mk (((rustTrim s1.data).take 32).map asciiLowerChar)))
    ∧ ((rustTrim s1.data).take 32 = (rustTrim s2.data).take 32 →
        run_id_from_manifest_inputs_fingerprint_hex32 s1
          = run_id_from_manifest_inputs_fingerprint_hex32 s2) := by
  refine ⟨?_, ?_, ?_, ?_⟩
  · constructor
    · rintro ⟨e, he⟩
      unfold run_id_from_manifest_inputs_fingerprint_hex32 at he
      by_contra hc
      rw [if_neg hc] at he
      exact absurd he (by simp)
    · intro hcond
      unfold run_id_from_manifest_inputs_fingerprint_hex32
      rw [if_pos hcond]
      exact ⟨_, rfl⟩
  · intro e he
    unfold run_id_from_manifest_inputs_fingerprint_hex32 at he
    by_cases hc : utf8Len (rustTrim s1.data) < 32
        ∨ ¬ (((rustTrim s1.data).take 32).all is_ascii_hexdigit = true)
    · rw [if_pos hc] at he
      injection he with h2
      exact h2.symm
    · rw [if_neg hc] at he
      exact absurd he (by simp)
  · intro hcond
    unfold run_id_from_manifest_inputs_fingerprint_hex32
    rw [if_neg hcond]
  · intro htake
    by_cases hlen : (rustTrim s1.data).length < 32
    · have htr : rustTrim s2.data = rustTrim s1.data := by
        have h1 : (rustTrim s1.data).take 32 = rustTrim s1.data :=
          List.take_of_length_le (by omega)
        rw [h1] at htake
        by_cases hlen2 : (rustTrim s2.data).length < 32
        · have h2 : (rustTrim s2.data).take 32 = rustTrim s2.data :=
            List.take_of_length_le (by omega)
          rw [h2] at htake
          exact htake.symm
        · exfalso
          have h3 : ((rustTrim s2.data).take 32).length = 32 := by
            rw [List.length_take]
            omega
          rw [← htake] at h3
          omega
      unfold run_id_from_manifest_inputs_fingerprint_hex32
      rw [htr]
    · have hlen2 : ¬ (rustTrim s2.data).length < 32 := by
        intro hc
        have h3 : ((rustTrim s1.data).take 32).length = 32 := by
          rw [List.length_take]
          omega
        have h4 : ((rustTrim s2.data).take 32).length = (rustTrim s2.data).length := by
          rw [List.length_take]
          omega
        rw [htake, h4] at h3
        omega
      have hu1 : ¬ utf8Len (rustTrim s1.data) < 32 := by
        have := utf8Len_ge_length (rustTrim s1.data) 0
        unfold utf8Len
        omega
      have hu2 : ¬ utf8Len (rustTrim s2.data) < 32 := by
        have := utf8Len_ge_length (rustTrim s2.data) 0
        unfold utf8Len
        omega
      unfold run_id_from_manifest_inputs_fingerprint_hex32
      by_cases hhex : ((rustTrim s2.data).take 32).all is_ascii_hexdigit = true
      · have hcond1 : ¬ (utf8Len (rustTrim s1.data) < 32
            ∨ ¬ (((rustTrim s1.data).take 32).all is_ascii_hexdigit = true)) := by
          rintro (h | h)
          · exact hu1 h
          · rw [htake] at h
            exact h hhex
        have hcond2 : ¬ (utf8Len (rustTrim s2.data) < 32
            ∨ ¬ (((rustTrim s2.data).take 32).all is_ascii_hexdigit = true)) := by
          rintro (h | h)
          · exact hu2 h
          · exact h hhex
        rw [if_neg hcond1, if_neg hcond2, htake]
      · have hcond1 : utf8Len (rustTrim s1.data) < 32
            ∨ ¬ (((rustTrim s1.data).take 32).all is_ascii_hexdigit = true) := by
          refine Or.inr ?_
          rw [htake]
          exact hhex
        rw [if_pos hcond1, if_pos (Or.inr hhex)]

/-- Witness for C8: a fingerprint of exactly 32 hex characters (with
surrounding whitespace trimmed) maps to `r_` plus its lowercased 32
characters, and a longer fingerprint with the same first 32 characters maps
to the same run id. -/
theorem C8_run_id_derivation_witness :
    run_id_from_manifest_inputs_fingerprint_hex32 " ABCDEF0123456789ABCDEF0123456789 "
      = .ok "r_abcdef0123456789abcdef0123456789"
    ∧ run_id_from_manifest_inputs_fingerprint_hex32 " ABCDEF0123456789ABCDEF0123456789 "
      = run_id_from_manifest_inputs_fingerprint_hex32 "ABCDEF0123456789ABCDEF0123456789zz" :=
  ⟨((C8_run_id_derivation " ABCDEF0123456789ABCDEF0123456789 "
        "ABCDEF0123456789ABCDEF0123456789zz").2.2.1 (by decide)).trans (by rfl),
   (C8_run_id_derivation " ABCDEF0123456789ABCDEF0123456789 "
        "ABCDEF0123456789ABCDEF0123456789zz").2.2.2 (by decide)⟩

/-! ## Claim C4: deterministic archive bytes -/

theorem nameLe_trans : ∀ a b c : FsEntry × String,
    nameLe a b = true → nameLe b c = true → nameLe a c = true := by
  intro a b c h1 h2
  rw [nameLe, strLe_iff] at h1 h2 ⊢
  exact le_trans h1 h2

theorem nameLe_total : ∀ a b : FsEntry × String, (nameLe a b || nameLe b a) = true := by
  intro a b
  rw [Bool.or_eq_true, nameLe, nameLe, strLe_iff, strLe_iff]
  exact le_total a.2 b.2

theorem mkZipRecord_name (p : FsEntry × String) : (mkZipRecord p).name = p.2 := by
  unfold mkZipRecord
  split <;> rfl

theorem zipSorted_eq (w1 w2 : List FsEntry) (hperm : w1.Perm w2)
    (hnodup : ((walkToNamed w1).map Prod.snd).Nodup) :
    (walkToNamed w1).mergeSort nameLe = (walkToNamed w2).mergeSort nameLe := by
  have hpermW : (walkToNamed w1).Perm (walkToNamed w2) := hperm.filterMap _
  have hp1 : ((walkToNamed w1).mergeSort nameLe).Perm (walkToNamed w1) :=
    List.mergeSort_perm _ _
  have hp2 : ((walkToNamed w2).mergeSort nameLe).Perm (walkToNamed w2) :=
    List.mergeSort_perm _ _
  have hp12 : ((walkToNamed w1).mergeSort nameLe).Perm ((walkToNamed w2).mergeSort nameLe) :=
    (hp1.trans hpermW).trans hp2.symm
  have hs1 : List.Pairwise (fun a b => nameLe a b = true) ((walkToNamed w1).mergeSort nameLe) :=
    List.sorted_mergeSort nameLe_trans nameLe_total _
  have hs2 : List.Pairwise (fun a b => nameLe a b = true) ((walkToNamed w2).mergeSort nameLe) :=
    List.sorted_mergeSort nameLe_trans nameLe_total _
  have hnd1 : (((walkToNamed w1).mergeSort nameLe).map Prod.snd).Nodup :=
    (hp1.map Prod.snd).nodup_iff.mpr hnodup
  have hnd2 : (((walkToNamed w2).mergeSort nameLe).map Prod.snd).Nodup :=
    (hp2.map Prod.snd).nodup_iff.mpr
      ((hpermW.map Prod.snd).nodup_iff.mp hnodup)
  have hne1 : List.Pairwise (fun a b : FsEntry × String => a.2 ≠ b.2)
      ((walkToNamed w1).mergeSort nameLe) := List.pairwise_map.mp hnd1
  have hne2 : List.Pairwise (fun a b : FsEntry × String => a.2 ≠ b.2)
      ((walkToNamed w2).mergeSort nameLe) := List.pairwise_map.mp hnd2
  have hlt1 : List.Sorted (fun a b : FsEntry × String => a.2 < b.2)
      ((walkToNamed w1).mergeSort nameLe) :=
    (hs1.and hne1).imp (fun h => lt_of_le_of_ne ((strLe_iff _ _).mp h.1) h.2)
  have hlt2 : List.Sorted (fun a b : FsEntry × String => a.2 < b.2)
      ((walkToNamed w2).mergeSort nameLe) :=
    (hs2.and hne2).imp (fun h => lt_of_le_of_ne ((strLe_iff _ _).mp h.1) h.2)
  haveI : IsAntisymm (FsEntry × String) (fun a b => a.2 < b.2) :=
    ⟨fun a b h1 h2 => absurd (lt_trans h1 h2) (lt_irrefl _)⟩
  exact List.eq_of_perm_of_sorted hp12 hlt1 hlt2

/-- C4.  Deterministic archive bytes: for a fixed directory tree (the same
filesystem entries, walked in any order, with distinct stored names), any two
invocations of `zip_dir_deterministic` produce the identical archive record
and hence identical encoded bytes and the same SHA-256 digest; the entries
are sorted strictly by stored name (directories carry a trailing slash);
every entry uses DEFLATE at level 9 with the fixed 1980-01-01 00:00:00
timestamp, permissions 0o755 for directory entries and 0o644 for file
entries; and the archive comment is empty.  The zip container encoder and
SHA-256 enter as parameters. -/
theorem C4_zip_deterministic (encode : ZipArchiveRec → List Nat)
    (sha : List Nat → String) (w1 w2 : List FsEntry)
    (hperm : w1.Perm w2)
    (hnodup : ((walkToNamed w1).map Prod.snd).Nodup) :
    zip_dir_deterministic encode sha w1 = zip_dir_deterministic encode sha w2
    ∧ List.Pairwise (fun a b : ZipEntryRec => a.name < b.name)
        (zip_dir_deterministic encode sha w1).1.entries
    ∧ (∀ e ∈ (zip_dir_deterministic encode sha w1).1.entries,
        e.method = methodDeflated ∧ e.level = some 9 ∧ e.time = fixedZipTime
          ∧ (strEndsWithSlash e.name = true → e.perms = 0o755)
          ∧ (strEndsWithSlash e.name = false → e.perms = 0o644))
    ∧ (zip_dir_deterministic encode sha w1).1.comment = "" := by
  refine ⟨?_, ?_, ?_, rfl⟩
  · unfold zip_dir_deterministic
    rw [zipSorted_eq w1 w2 hperm hnodup]
  · unfold zip_dir_deterministic
    dsimp only []
    have hpermW : (walkToNamed w1).Perm (walkToNamed w2) := hperm.filterMap _
    have hp1 : ((walkToNamed w1).mergeSort nameLe).Perm (walkToNamed w1) :=
      List.mergeSort_perm _ _
    have hs1 : List.Pairwise (fun a b => nameLe a b = true)
        ((walkToNamed w1).mergeSort nameLe) :=
      List.sorted_mergeSort nameLe_trans nameLe_total _
    have hnd1 : (((walkToNamed w1).mergeSort nameLe).map Prod.snd).Nodup :=
      (hp1.map Prod.snd).nodup_iff.mpr hnodup
    have hne1 : List.Pairwise (fun a b : FsEntry × String => a.2 ≠ b.2)
        ((walkToNamed w1).mergeSort nameLe) := List.pairwise_map.mp hnd1
    have hlt1 : List.Pairwise (fun a b : FsEntry × String => a.2 < b.2)
        ((walkToNamed w1).mergeSort nameLe) :=
      (hs1.and hne1).imp (fun h => lt_of_le_of_ne ((strLe_iff _ _).mp h.1) h.2)
    rw [List.pairwise_map]
    exact hlt1.imp (fun h => by rw [mkZipRecord_name, mkZipRecord_name]; exact h)
  · intro e he
    unfold zip_dir_deterministic at he
    dsimp only [] at he
    rcases List.mem_map.mp he with ⟨p, _, rfl⟩
    unfold mkZipRecord
    by_cases hd : strEndsWithSlash p.2 = true
    · simp [hd]
    · simp [hd]

theorem C4_zip_deterministic_witness :
    zip_dir_deterministic (fun _ => []) (fun _ => "h")
        [⟨["a", "f"], false, [1]⟩, ⟨["a"], true, []⟩]
      = zip_dir_deterministic (fun _ => []) (fun _ => "h")
        [⟨["a"], true, []⟩, ⟨["a", "f"], false, [1]⟩] :=
  (C4_zip_deterministic (fun _ => []) (fun _ => "h")
    [⟨["a", "f"], false, [1]⟩, ⟨["a"], true, []⟩]
    [⟨["a"], true, []⟩, ⟨["a", "f"], false, [1]⟩]
    (by decide) (by decide)).1

/-- The input-bytes requirement is the only difference the export profile makes
to the per-row loop: when every row is either an output artifact (`o:` prefix)
or has its input-bytes entry present, `INCLUDE_INPUT_BYTES` behaves like
`HASH_ONLY`. -/
theorem checkRowsLoop_profile_eq (readEntry : String → Except String (List Nat))
    (sha : List Nat → String) (paths : List String) :
    ∀ rows : List CsvRow,
      (∀ r ∈ rows, strStartsWith r.artifact_id "o:" = true
          ∨ paths.contains (inputsBytesPath r.artifact_id) = true) →
      checkRowsLoop readEntry sha paths "INCLUDE_INPUT_BYTES" rows
        = checkRowsLoop readEntry sha paths "HASH_ONLY" rows
  | [], _ => rfl
  | r :: rest, h => by
      have hr := h r (List.mem_cons_self r rest)
      have hrest : ∀ x ∈ rest, strStartsWith x.artifact_id "o:" = true
          ∨ paths.contains (inputsBytesPath x.artifact_id) = true :=
        fun x hx => h x (List.mem_cons_of_mem r hx)
      have ih := checkRowsLoop_profile_eq readEntry sha paths rest hrest
      simp only [checkRowsLoop]
      by_cases h1 : r.bundle_rel_path = ""
      · rw [if_pos h1, if_pos h1, ih]
      · rw [if_neg h1, if_neg h1]
        by_cases h2 : paths.contains r.bundle_rel_path = true
        · rw [if_neg (not_not_intro h2), if_neg (not_not_intro h2)]
          cases hread : readEntry r.bundle_rel_path with
          | error e => rfl
          | ok entry_bytes =>
              dsimp only []
              by_cases h3 : entry_bytes.length = r.bytes
              · rw [if_neg (not_not_intro h3), if_neg (not_not_intro h3)]
                by_cases h4 : sha entry_bytes = r.sha256
                · rw [if_neg (not_not_intro h4), if_neg (not_not_intro h4)]
                  have hno1 : ¬ (True ∧ ¬ strStartsWith r.artifact_id "o:" = true
                      ∧ ¬ paths.contains (inputsBytesPath r.artifact_id) = true) := by
                    rintro ⟨-, hb, hc⟩
                    cases hr with
                    | inl ho => exact hb ho
                    | inr hp => exact hc hp
                  have hno2 : ¬ (("HASH_ONLY" : String) = "INCLUDE_INPUT_BYTES"
                      ∧ ¬ strStartsWith r.artifact_id "o:" = true
                      ∧ ¬ paths.contains (inputsBytesPath r.artifact_id) = true) := by
                    rintro ⟨hpq, -, -⟩
                    exact absurd hpq (by decide)
                  rw [if_neg hno1, if_neg hno2, ih]
                · rw [if_pos h4, if_pos h4]
              · rw [if_pos h3, if_pos h3]
        · rw [if_pos h2, if_pos h2]

/-- C10: in `CHK.ARTIFACT_HASHES.VERIFY` under export profile
`INCLUDE_INPUT_BYTES`, the `inputs_snapshot/artifacts/<artifact_id>/bytes`
entry is required exactly for rows whose `artifact_id` does not start with
`o:`. (1) When every row either carries the `o:` prefix or has its input-bytes
entry present, the check coincides with the `HASH_ONLY` check; (2) a fully
matching row without the `o:` prefix whose input-bytes entry is absent fails
the check with the missing-input-bytes message; (3) a fully matching row with
the `o:` prefix never triggers that failure: the loop continues regardless of
whether the input-bytes entry is present. -/
theorem C10_output_artifacts_exempt (readEntry : String → Except String (List Nat))
    (sha : List Nat → String) (paths : List String) :
    (∀ rows : List CsvRow,
        (∀ r ∈ rows, strStartsWith r.artifact_id "o:" = true
            ∨ paths.contains (inputsBytesPath r.artifact_id) = true) →
        check_artifact_hashes readEntry sha paths "INCLUDE_INPUT_BYTES" rows
          = check_artifact_hashes readEntry sha paths "HASH_ONLY" rows)
    ∧ (∀ (r : CsvRow) (rest : List CsvRow) (entry_bytes : List Nat),
        ¬ r.bundle_rel_path = "" →
        paths.contains r.bundle_rel_path = true →
        readEntry r.bundle_rel_path = Except.ok entry_bytes →
        entry_bytes.length = r.bytes →
        sha entry_bytes = r.sha256 →
        ¬ strStartsWith r.artifact_id "o:" = true →
        ¬ paths.contains (inputsBytesPath r.artifact_id) = true →
        checkRowsLoop readEntry sha paths "INCLUDE_INPUT_BYTES" (r :: rest)
          = failCheck "CHK.ARTIFACT_HASHES.VERIFY"
              ("missing input bytes at " ++ inputsBytesPath r.artifact_id))
    ∧ (∀ (r : CsvRow) (rest : List CsvRow) (entry_bytes : List Nat),
        ¬ r.bundle_rel_path = "" →
        paths.contains r.bundle_rel_path = true →
        readEntry r.bundle_rel_path = Except.ok entry_bytes →
        entry_bytes.length = r.bytes →
        sha entry_bytes = r.sha256 →
        strStartsWith r.artifact_id "o:" = true →
        checkRowsLoop readEntry sha paths "INCLUDE_INPUT_BYTES" (r :: rest)
          = checkRowsLoop readEntry sha paths "INCLUDE_INPUT_BYTES" rest) := by
  refine ⟨?_, ?_, ?_⟩
  · intro rows hrows
    unfold check_artifact_hashes
    by_cases hs : rows.mergeSort rowLe = rows
    · rw [if_neg (not_not_intro hs), if_neg (not_not_intro hs)]
      exact checkRowsLoop_profile_eq readEntry sha paths rows hrows
    · rw [if_pos hs, if_pos hs]
  · intro r rest entry_bytes h1 h2 hread h3 h4 ho hc
    simp only [checkRowsLoop]
    rw [if_neg h1, if_neg (not_not_intro h2), hread]
    dsimp only []
    rw [if_neg (not_not_intro h3), if_neg (not_not_intro h4),
      if_pos ⟨trivial, ho, hc⟩]
  · intro r rest entry_bytes h1 h2 hread h3 h4 ho
    simp only [checkRowsLoop]
    rw [if_neg h1, if_neg (not_not_intro h2), hread]
    dsimp only []
    rw [if_neg (not_not_intro h3), if_neg (not_not_intro h4)]
    have hno : ¬ (True ∧ ¬ strStartsWith r.artifact_id "o:" = true
        ∧ ¬ paths.contains (inputsBytesPath r.artifact_id) = true) := by
      rintro ⟨-, hb, -⟩
      exact hb ho
    rw [if_neg hno]

theorem C10_output_artifacts_exempt_witness :
    check_artifact_hashes (fun _ => Except.ok ([] : List Nat)) (fun _ => "s")
        ["p"] "INCLUDE_INPUT_BYTES" [⟨"o:x", "p", "s", 0⟩]
      = check_artifact_hashes (fun _ => Except.ok ([] : List Nat)) (fun _ => "s")
        ["p"] "HASH_ONLY" [⟨"o:x", "p", "s", 0⟩] :=
  (C10_output_artifacts_exempt (fun _ => Except.ok ([] : List Nat)) (fun _ => "s")
      ["p"]).1 [⟨"o:x", "p", "s", 0⟩] (by decide)

end AIGC
